import Mathlib

/-!
Verification development for the centrography module of the points
contrib package (file pysal/contrib/points/centrography.py) and its
specification of the Skyum minimum-enclosing-circle core.

Coordinates are modelled as exact rationals (the Python code uses
IEEE doubles; all claims checked here are about exact arithmetic
structure, not rounding).  Fallible operations return Except values
over the error taxonomy of the spec.
-/

namespace Centrography

/-- A planar point: an ordered pair of coordinates. -/
abbrev Point : Type := ℚ × ℚ

/-- Source constant MAXD = sys.float_info.max = (2 - 2^-52) * 2^1023,
as an exact rational. -/
def MAXD : ℚ := (2 ^ 53 - 1) * 2 ^ 971

/-- Source constant MIND = sys.float_info.min = 2^-1022, the smallest
positive normalized double (not the most negative float), as an exact
rational. -/
def MIND : ℚ := 1 / 2 ^ 1022

/-- One loop body of mbr: the four sequential conditional updates of
the running extrema, exactly as in the source. -/
def mbrStep (acc : ℚ × ℚ × ℚ × ℚ) (p : Point) : ℚ × ℚ × ℚ × ℚ :=
  let mnx := acc.1
  let mny := acc.2.1
  let mxx := acc.2.2.1
  let mxy := acc.2.2.2
  let mxx := if p.1 > mxx then p.1 else mxx
  let mnx := if p.1 < mnx then p.1 else mnx
  let mxy := if p.2 > mxy then p.2 else mxy
  let mny := if p.2 < mny then p.2 else mny
  (mnx, mny, mxx, mxy)

/-- mbr from the source: running minima start at MAXD and running
maxima start at MIND, then one pass over the points.  Returns
(min_x, min_y, max_x, max_y). -/
def mbr (pts : List Point) : ℚ × ℚ × ℚ × ℚ :=
  pts.foldl mbrStep (MAXD, MAXD, MIND, MIND)

/-- mean_center from the source: componentwise arithmetic mean. -/
def mean_center (pts : List Point) : Point :=
  ((pts.map Prod.fst).sum / (pts.length : ℚ),
   (pts.map Prod.snd).sum / (pts.length : ℚ))

/-- weighted_mean_center from the source: weights are normalized by
their sum, then dotted with the coordinates. -/
def weighted_mean_center (pts : List Point) (weights : List ℚ) : Point :=
  let s := weights.sum
  let w := weights.map (fun v => v / s)
  (((w.zip pts).map (fun t => t.1 * t.2.1)).sum,
   ((w.zip pts).map (fun t => t.1 * t.2.2)).sum)

/-- Insert into a sorted list, keeping it sorted under le. -/
def insertSorted {α : Type} (le : α → α → Bool) (x : α) : List α → List α
  | [] => [x]
  | y :: ys => if le x y then x :: y :: ys else y :: insertSorted le x ys

/-- Stable insertion sort under le. -/
def insertionSort {α : Type} (le : α → α → Bool) : List α → List α
  | [] => []
  | x :: xs => insertSorted le x (insertionSort le xs)

/-- Model of the external numpy median of a one-dimensional array:
sort ascending; for odd length take the middle element, for even
length the average of the two middle elements. -/
def npMedian (xs : List ℚ) : ℚ :=
  let s := insertionSort (fun a b => decide (a ≤ b)) xs
  let n := xs.length
  if n % 2 = 1 then s.getD (n / 2) 0
  else (s.getD (n / 2 - 1) 0 + s.getD (n / 2) 0) / 2

/-- manhattan_median from the source.  The first component models the
warning channel: the source warns exactly when `not len(points) % 2`
is truthy, i.e. when the length is even; it then returns the
componentwise median unconditionally. -/
def manhattan_median (pts : List Point) : Bool × Point :=
  (pts.length % 2 == 0,
   (npMedian (pts.map Prod.fst), npMedian (pts.map Prod.snd)))

/-- Modelled from the spec: the error taxonomy of section 7. -/
inductive CentroError : Type where
  | InsufficientPointsError : CentroError
  | DegenerateHullError : CentroError
  | DegenerateTripleError : CentroError
  | DegenerateReductionError : CentroError
deriving DecidableEq, Repr

/-- Modelled from the spec: a Circle is a center Point and a
non-negative radius.  The radius is represented by its square (rsq),
which keeps the model in exact rational arithmetic; the radius itself
is the square root of rsq and comparisons of radii and of distances
coincide with comparisons of their squares. -/
structure Circle : Type where
  center : Point
  rsq : ℚ
deriving DecidableEq, Repr, Inhabited

/-- Squared Euclidean distance between two points. -/
def distSq (a b : Point) : ℚ :=
  (a.1 - b.1) ^ 2 + (a.2 - b.2) ^ 2

/-- Modelled from the spec: the determinant
D = 2*(px*(qy - ry) + qx*(ry - py) + rx*(py - qy)) of the
circumscribed-circle computation (section 4.1). -/
def circumD (p q r : Point) : ℚ :=
  2 * (p.1 * (q.2 - r.2) + q.1 * (r.2 - p.2) + r.1 * (p.2 - q.2))

/-- Modelled from the spec: the Circumscribed Circle leaf of section
4.1, which is code of this repository absent from src (the Skyum core
this spec was written from).  If the determinant D is zero the triple
is collinear and the computation fails with DegenerateTripleError;
otherwise the circumcenter is returned, with center_y using the
x-coordinate differences of the standard circumcenter formula — the
formula that makes the returned circle pass through all three points,
as required by the input/output description of section 4.1, by the
glossary, and by the known-answer scenarios of section 8 (the
y-differences printed in the spec's center_y line fail all of
those).  The radius is the distance from the center to p, recorded as
its square. -/
def circumscribed_circle (p q r : Point) : Except CentroError Circle :=
  let D := circumD p q r
  if D = 0 then Except.error CentroError.DegenerateTripleError
  else
    let a := p.1 ^ 2 + p.2 ^ 2
    let b := q.1 ^ 2 + q.2 ^ 2
    let c := r.1 ^ 2 + r.2 ^ 2
    let cx := (a * (q.2 - r.2) + b * (r.2 - p.2) + c * (p.2 - q.2)) / D
    let cy := (a * (r.1 - q.1) + b * (p.1 - r.1) + c * (q.1 - p.1)) / D
    Except.ok ⟨(cx, cy), distSq (cx, cy) p⟩

/-- The literal center_y expression printed in section 4.1 of the
spec, kept verbatim for comparison with the circumcenter actually
required by the rest of the spec:
center_y = ((px²+py²)(ry−qy) + (qx²+qy²)(py−ry) + (rx²+ry²)(qy−py)) / D. -/
def specLiteralCenterY (p q r : Point) : ℚ :=
  ((p.1 ^ 2 + p.2 ^ 2) * (r.2 - q.2) + (q.1 ^ 2 + q.2 ^ 2) * (p.2 - r.2) +
    (r.1 ^ 2 + r.2 ^ 2) * (q.2 - p.2)) / circumD p q r

/-- Dot product of the rays q→p and q→r, used to place the vertex
angle at q relative to a right angle: for non-coincident points the
angle at q exceeds pi/2 exactly when this dot product is negative. -/
def qdot (p q r : Point) : ℚ :=
  (p.1 - q.1) * (r.1 - q.1) + (p.2 - q.2) * (r.2 - q.2)

/-- Squared norm of the ray from q to p. -/
def qnormSq (p q : Point) : ℚ :=
  (p.1 - q.1) ^ 2 + (p.2 - q.2) ^ 2

/-- Modelled from the spec: the Vertex Angle leaf of section 4.2 (code
of this repository absent from src), as a real number: the angle at q
between the rays q→p and q→r, in radians in the interval from 0 to pi,
via the dot-product/arccos formula. -/
noncomputable def vertex_angle (p q r : Point) : ℝ :=
  Real.arccos ((qdot p q r : ℝ) /
    (Real.sqrt (qnormSq p q) * Real.sqrt (qnormSq r q)))

/-- Exact comparison of two cosines given as d / sqrt s with s > 0:
returns true when d1 / sqrt s1 < d2 / sqrt s2. -/
def cosLt (d1 s1 d2 s2 : ℚ) : Bool :=
  if 0 ≤ d1 then
    if 0 ≤ d2 then decide (d1 ^ 2 * s2 < d2 ^ 2 * s1) else false
  else
    if 0 ≤ d2 then true else decide (d2 ^ 2 * s1 < d1 ^ 2 * s2)

/-- Per-vertex Selection Key data for one iteration of the Skyum
Reducer: the angle at the vertex is represented exactly by the pair
(d, s) with cosine d / sqrt s, and the circumscribed circle of the
vertex's triple is carried along. -/
structure VKey : Type where
  d : ℚ
  s : ℚ
  circ : Circle
deriving DecidableEq, Repr, Inhabited

/-- Lexicographic comparison of Selection Keys, angle first (larger
angle means smaller cosine), circumradius second: keyGt a b holds when
(angle, radius) of a strictly exceeds that of b lexicographically. -/
def keyGt (a b : VKey) : Bool :=
  cosLt a.d a.s b.d b.s ||
    (!cosLt a.d a.s b.d b.s && !cosLt b.d b.s a.d a.s &&
      decide (b.circ.rsq < a.circ.rsq))

/-- Modelled from the spec: the Circular Neighbor Index of section
4.3 — the triple (predecessor, vertex, successor) of the vertex at
position i of the current sequence, indices taken modulo the current
length. -/
def tripleAt (pts : List Point) (i : Nat) : Point × Point × Point :=
  (pts.getD ((i + pts.length - 1) % pts.length) (0, 0),
   pts.getD i (0, 0),
   pts.getD ((i + 1) % pts.length) (0, 0))

/-- Modelled from the spec: the per-vertex work of one Skyum
iteration (section 4.4 step 1): the vertex angle (as its exact
(d, s) representation, failing with DegenerateTripleError on a
coincident predecessor or successor, section 4.2) and the
circumscribed circle of the triple. -/
def vkeyAt (pts : List Point) (i : Nat) : Except CentroError VKey :=
  let t := tripleAt pts i
  let p := t.1
  let q := t.2.1
  let r := t.2.2
  if p = q ∨ r = q then Except.error CentroError.DegenerateTripleError
  else
    match circumscribed_circle p q r with
    | Except.error e => Except.error e
    | Except.ok c => Except.ok ⟨qdot p q r, qnormSq p q * qnormSq r q, c⟩

/-- The ascending list of n indices starting at i. -/
def rangeFrom : Nat → Nat → List Nat
  | _, 0 => []
  | i, n + 1 => i :: rangeFrom (i + 1) n

/-- Modelled from the spec: step 2 of section 4.4 with the selection
direction fixed as section 9 directs (select the vertex whose angle is
currently largest, ties broken by larger circumradius, first such
index on exact ties): a left fold over the indices keeping the
strictly greatest key. -/
def selectIdx (keys : List VKey) : Nat :=
  (rangeFrom 0 keys.length).foldl
    (fun best i =>
      if keyGt (keys.getD i default) (keys.getD best default) then i
      else best) 0

/-- Outcome of one Skyum iteration: either the reducer stays ACTIVE
with a shrunk sequence, or it is DONE with the final circle. -/
inductive StepResult : Type where
  | ACTIVE : List Point → StepResult
  | DONE : Circle → StepResult
deriving DecidableEq, Repr

/-- Score the vertices at the given positions, failing on the first
degenerate triple (errors are unrecoverable and surfaced immediately,
section 7). -/
def vkeys (pts : List Point) : List Nat → Except CentroError (List VKey)
  | [] => Except.ok []
  | i :: rest =>
    match vkeyAt pts i with
    | Except.error e => Except.error e
    | Except.ok k =>
      match vkeys pts rest with
      | Except.error e => Except.error e
      | Except.ok ks => Except.ok (k :: ks)

/-- Modelled from the spec: one ACTIVE-state transition of the Skyum
Reducer (section 4.4 steps 1-3): score every vertex, select one by
the lexicographic rule, then either remove exactly the selected
vertex by position (the selected angle exceeds pi/2, i.e. its dot
product is negative) and stay ACTIVE, or transition to DONE with the
selected vertex's circumscribed circle. -/
def skyumStep (pts : List Point) : Except CentroError StepResult :=
  match vkeys pts (rangeFrom 0 pts.length) with
  | Except.error e => Except.error e
  | Except.ok keys =>
    let i := selectIdx keys
    let k := keys.getD i default
    if k.d < 0 then Except.ok (StepResult.ACTIVE (pts.eraseIdx i))
    else Except.ok (StepResult.DONE k.circ)

/-- Modelled from the spec: the Skyum Reducer iteration (section 4.4),
with the fail-fast guard of step 4: a working sequence of fewer than
3 points raises DegenerateReductionError.  The fuel argument is an
upper bound on the number of removals; each ACTIVE step removes one
point, so the initial length always suffices. -/
def skyumIter : Nat → List Point → Except CentroError Circle
  | 0, _ => Except.error CentroError.DegenerateReductionError
  | fuel + 1, pts =>
    if pts.length < 3 then Except.error CentroError.DegenerateReductionError
    else
      match skyumStep pts with
      | Except.error e => Except.error e
      | Except.ok (StepResult.DONE c) => Except.ok c
      | Except.ok (StepResult.ACTIVE rest) => skyumIter fuel rest

/-- Modelled from the spec: run the Skyum Reducer on a hull sequence. -/
def skyum (pts : List Point) : Except CentroError Circle :=
  skyumIter pts.length pts

/-- Cross product of the vectors a→b and a→c; zero exactly when a, b
and c are collinear. -/
def cross (a b c : Point) : ℚ :=
  (b.1 - a.1) * (c.2 - a.2) - (b.2 - a.2) * (c.1 - a.1)

/-- Decides whether every triple drawn from the list is collinear. -/
def allCollinear (pts : List Point) : Bool :=
  pts.all (fun a => pts.all (fun b => pts.all (fun c => cross a b c == 0)))

/-- The distinct points of a list: drop every occurrence that recurs
later, keeping the last one. -/
def distinctList : List Point → List Point
  | [] => []
  | x :: xs => if x ∈ xs then distinctList xs else x :: distinctList xs

/-- Lexicographic order on points, x first, used to sort before the
monotone-chain scan. -/
def lexLe (a b : Point) : Bool :=
  decide (a.1 < b.1) || (a.1 == b.1 && decide (a.2 ≤ b.2))

/-- One insertion of the monotone-chain scan: with the chain held in
reverse (head = most recent), pop while the last two retained points
and the new point fail to make a strict left turn, then push. -/
def chainPush : List Point → Point → List Point
  | b :: a :: rest, p =>
    if cross a b p ≤ 0 then chainPush (a :: rest) p else p :: b :: a :: rest
  | st, p => p :: st

/-- Half of the monotone chain: scan the points in the given order,
returning the retained chain in scan order. -/
def halfChain (pts : List Point) : List Point :=
  (pts.foldl chainPush []).reverse

/-- Monotone-chain convex hull of a lexicographically sorted list of
distinct points: the lower chain followed by the upper chain, each
with its final point dropped, giving the hull vertices in
counter-clockwise order. -/
def hullCCW (pts : List Point) : List Point :=
  (halfChain pts).dropLast ++ (halfChain pts.reverse).dropLast

/-- Modelled from the spec: the external Hull Provider interface of
section 6 (the source delegates to scipy's ConvexHull, which is not
code of this repository): fewer than 3 distinct input points fail
with InsufficientPointsError; an all-collinear input fails with
DegenerateHullError; otherwise the duplicate-free input is sorted and
the monotone-chain hull is returned in counter-clockwise order. -/
def hull (pts : List Point) : Except CentroError (List Point) :=
  let distinct := distinctList pts
  if distinct.length < 3 then Except.error CentroError.InsufficientPointsError
  else if allCollinear pts then Except.error CentroError.DegenerateHullError
  else Except.ok (hullCCW (insertionSort lexLe distinct))

/-- Modelled from the spec: the Skyum entry point of section 6.  If
already_hull is false the input first passes through the Hull
Provider; the hull sequence then drives the Skyum Reducer. -/
def minimum_enclosing_circle (pts : List Point)
    (already_hull : Bool := false) : Except CentroError Circle :=
  if already_hull then skyum pts
  else
    match hull pts with
    | Except.error e => Except.error e
    | Except.ok h => skyum h

/-- dtot from the source: sum of Euclidean distances from coord to
each event point. -/
noncomputable def dtot (coord : Point) (pts : List Point) : ℝ :=
  (pts.map (fun p =>
    Real.sqrt (((p.1 : ℝ) - (coord.1 : ℝ)) ^ 2 +
               ((p.2 : ℝ) - (coord.2 : ℝ)) ^ 2))).sum

/-- euclidean_median from the source, with the scipy minimizer as an
injected capability: minimize the dtot objective starting from the
mean center and return the solution unchanged. -/
noncomputable def euclidean_median
    (minimize : (Point → ℝ) → Point → Point) (pts : List Point) : Point :=
  minimize (fun c => dtot c pts) (mean_center pts)

/-! Helper lemmas. -/

theorem if_gt_eq_max (c x : ℚ) : (if x > c then x else c) = max c x := by
  rcases le_or_lt x c with h | h
  · rw [if_neg (not_lt.mpr h), max_eq_left h]
  · rw [if_pos h, max_eq_right h.le]

theorem if_lt_eq_min (c x : ℚ) : (if x < c then x else c) = min c x := by
  rcases le_or_lt c x with h | h
  · rw [if_neg (not_lt.mpr h), min_eq_left h]
  · rw [if_pos h, min_eq_right h.le]

theorem mbrStep_eq (a b c d : ℚ) (p : Point) :
    mbrStep (a, b, c, d) p = (min a p.1, min b p.2, max c p.1, max d p.2) := by
  simp only [mbrStep, if_gt_eq_max, if_lt_eq_min]

theorem mbr_foldl (pts : List Point) : ∀ a b c d : ℚ,
    pts.foldl mbrStep (a, b, c, d) =
      ((pts.map Prod.fst).foldl min a, (pts.map Prod.snd).foldl min b,
       (pts.map Prod.fst).foldl max c, (pts.map Prod.snd).foldl max d) := by
  induction pts with
  | nil => intro a b c d; rfl
  | cons p rest ih =>
    intro a b c d
    simp only [List.foldl_cons, List.map_cons, mbrStep_eq]
    exact ih _ _ _ _

theorem foldl_max_const (xs : List ℚ) : ∀ c : ℚ, (∀ x ∈ xs, x ≤ c) →
    xs.foldl max c = c := by
  induction xs with
  | nil => intro c _; rfl
  | cons x rest ih =>
    intro c h
    simp only [List.foldl_cons]
    rw [max_eq_left (h x (List.mem_cons_self x rest))]
    exact ih c fun y hy => h y (List.mem_cons_of_mem x hy)

theorem sum_map_mul (ws : List ℚ) (c : ℚ) :
    (ws.map fun v => c * v).sum = c * ws.sum := by
  induction ws with
  | nil => simp
  | cons w rest ih => simp only [List.map_cons, List.sum_cons, ih]; ring

/-! Claim theorems for the source utilities. -/

/-- C8: for every non-empty point array, mbr returns min_x equal to
the minimum of MAXD (sys.float_info.max) and all x-coordinates and
max_x equal to the maximum of MIND (sys.float_info.min) and all
x-coordinates, and likewise for y; since MIND is the smallest
positive float rather than the most negative one, whenever every
x-coordinate (resp. y-coordinate) is below MIND the reported maximum
is the sentinel MIND instead of the true coordinate maximum. -/
theorem mbr_extrema (pts : List Point) (hne : pts ≠ []) :
    mbr pts =
      ((pts.map Prod.fst).foldl min MAXD, (pts.map Prod.snd).foldl min MAXD,
       (pts.map Prod.fst).foldl max MIND, (pts.map Prod.snd).foldl max MIND)
    ∧ ((∀ p ∈ pts, p.1 < MIND) → (mbr pts).2.2.1 = MIND)
    ∧ ((∀ p ∈ pts, p.2 < MIND) → (mbr pts).2.2.2 = MIND) := by
  have hfold := mbr_foldl pts MAXD MAXD MIND MIND
  refine ⟨hfold, ?_, ?_⟩
  · intro hall
    rw [show mbr pts = pts.foldl mbrStep (MAXD, MAXD, MIND, MIND) from rfl, hfold]
    exact foldl_max_const _ _ fun x hx => by
      obtain ⟨p, hp, rfl⟩ := List.mem_map.mp hx
      exact (hall p hp).le
  · intro hall
    rw [show mbr pts = pts.foldl mbrStep (MAXD, MAXD, MIND, MIND) from rfl, hfold]
    exact foldl_max_const _ _ fun x hx => by
      obtain ⟨p, hp, rfl⟩ := List.mem_map.mp hx
      exact (hall p hp).le

/-- Witness for C8 at the all-negative input [(-1,-2),(-3,-4)]: the
reported max_x and max_y are the sentinel MIND = 2^-1022, not the
true maxima -1 and -2. -/
theorem mbr_extrema_witness :
    (mbr [((-1 : ℚ), -2), (-3, -4)]).2.2.1 = MIND ∧
    (mbr [((-1 : ℚ), -2), (-3, -4)]).2.2.2 = MIND := by
  have h := mbr_extrema [((-1 : ℚ), -2), (-3, -4)] (by simp)
  have hmind : (0 : ℚ) < MIND := by norm_num [MIND]
  refine ⟨h.2.1 ?_, h.2.2 ?_⟩ <;>
  · intro p hp
    simp only [List.mem_cons, List.not_mem_nil, or_false] at hp
    rcases hp with rfl | rfl <;> norm_num <;> linarith

/-- C9: weighted_mean_center is invariant under rescaling of the
weights by any nonzero scalar, because the weights are normalized by
their sum before the weighted average is taken. -/
theorem weighted_mean_center_scale_invariant
    (pts : List Point) (ws : List ℚ) (c : ℚ)
    (hs : ws.sum ≠ 0) (hc : c ≠ 0) :
    weighted_mean_center pts (ws.map fun v => c * v) =
      weighted_mean_center pts ws := by
  have hmap : (ws.map fun v => c * v).map (fun v => v / ((ws.map fun v => c * v).sum)) =
      ws.map fun v => v / ws.sum := by
    rw [sum_map_mul, List.map_map]
    have : ((fun v => v / (c * ws.sum)) ∘ fun v => c * v) = fun v => v / ws.sum := by
      funext v
      simp only [Function.comp_apply]
      rw [mul_div_mul_left v ws.sum hc]
    rw [this]
  simp only [weighted_mean_center]
  rw [hmap]

/-- Witness for C9: doubling the weights [1, 3] leaves the weighted
mean center of [(1,2),(3,4)] unchanged. -/
theorem weighted_mean_center_scale_invariant_witness :
    weighted_mean_center [((1 : ℚ), 2), (3, 4)] [2, 6] =
      weighted_mean_center [((1 : ℚ), 2), (3, 4)] [1, 3] := by
  have h := weighted_mean_center_scale_invariant [((1 : ℚ), 2), (3, 4)] [1, 3] 2
    (by norm_num) (by norm_num)
  have hl : (([1, 3] : List ℚ).map fun v => 2 * v) = [2, 6] := by norm_num
  rw [hl] at h
  exact h

/-- C10: manhattan_median warns exactly when the number of input
points is even (the source tests `not len(points) % 2`), and in every
case — warning or not — still returns the componentwise per-axis
median of the coordinates rather than failing. -/
theorem manhattan_median_spec (pts : List Point) (hne : pts ≠ []) :
    ((manhattan_median pts).1 = true ↔ Even pts.length)
    ∧ (manhattan_median pts).2 =
        (npMedian (pts.map Prod.fst), npMedian (pts.map Prod.snd)) := by
  constructor
  · simp [manhattan_median, Nat.even_iff]
  · rfl

/-- Witness for C10: the even input [(1,2),(3,4),(1,0),(3,2)] warns
and returns the per-axis medians (2, 2); the odd input
[(1,2),(3,4),(5,0)] does not warn and returns (3, 2). -/
theorem manhattan_median_spec_witness :
    ((manhattan_median [((1 : ℚ), 2), (3, 4), (1, 0), (3, 2)]).1 = true ∧
      (manhattan_median [((1 : ℚ), 2), (3, 4), (1, 0), (3, 2)]).2 = (2, 2))
    ∧ ((manhattan_median [((1 : ℚ), 2), (3, 4), (5, 0)]).1 = false ∧
      (manhattan_median [((1 : ℚ), 2), (3, 4), (5, 0)]).2 = (3, 2)) := by
  have h1 := manhattan_median_spec [((1 : ℚ), 2), (3, 4), (1, 0), (3, 2)] (by simp)
  have h2 := manhattan_median_spec [((1 : ℚ), 2), (3, 4), (5, 0)] (by simp)
  refine ⟨⟨h1.1.mpr (by decide), ?_⟩, ⟨?_, ?_⟩⟩
  · rw [h1.2]
    norm_num [npMedian, insertionSort, insertSorted]
  · rcases hb : (manhattan_median [((1 : ℚ), 2), (3, 4), (5, 0)]).1 with _ | _
    · rfl
    · exact absurd (h2.1.mp hb) (by decide)
  · rw [h2.2]
    norm_num [npMedian, insertionSort, insertSorted]

/-- C7: euclidean_median delegates to the injected unconstrained
minimizer: it passes the sum-of-Euclidean-distances objective over
the input points, starts from the mean center, and returns the
minimizer's solution unchanged. -/
theorem euclidean_median_delegates
    (minimize : (Point → ℝ) → Point → Point) (pts : List Point) :
    euclidean_median minimize pts =
      minimize
        (fun c => (pts.map fun p =>
          Real.sqrt (((p.1 : ℝ) - (c.1 : ℝ)) ^ 2 +
                     ((p.2 : ℝ) - (c.2 : ℝ)) ^ 2)).sum)
        ((pts.map Prod.fst).sum / (pts.length : ℚ),
         (pts.map Prod.snd).sum / (pts.length : ℚ)) := rfl

theorem circumscribed_circle_on_circle (p q r : Point) (c : Circle)
    (h : circumscribed_circle p q r = Except.ok c) :
    c.rsq = distSq c.center p ∧ c.rsq = distSq c.center q ∧
      c.rsq = distSq c.center r := by
  by_cases hD : circumD p q r = 0
  · simp only [circumscribed_circle, if_pos hD] at h
    cases h
  · simp only [circumscribed_circle, if_neg hD, Except.ok.injEq] at h
    subst h
    refine ⟨rfl, ?_, ?_⟩ <;>
    · show distSq _ _ = distSq _ _
      unfold distSq circumD at *
      field_simp
      ring

/-- C5 counterexample: at the triple p = (0,0), q = (2,0), r = (1,1)
the determinant is 4 and the function returns center (1, 0) and
squared radius 1 (the circle through all three points), while the
spec's literal center_y line (the one with y-coordinate differences)
evaluates to -1; the resulting point (1, -1) is not equidistant from
the triple, so the literal formula does not describe the
circumscribed circle the rest of the spec requires. -/
theorem circumscribed_circle_literal_cy_counterexample :
    circumscribed_circle (0, 0) (2, 0) (1, 1) = Except.ok ⟨(1, 0), 1⟩
    ∧ specLiteralCenterY (0, 0) (2, 0) (1, 1) = -1
    ∧ ((1 : ℚ), (0 : ℚ)) ≠ (1, specLiteralCenterY (0, 0) (2, 0) (1, 1))
    ∧ distSq (1, specLiteralCenterY (0, 0) (2, 0) (1, 1)) (1, 1) ≠
        distSq (1, specLiteralCenterY (0, 0) (2, 0) (1, 1)) (0, 0) := by
  refine ⟨?_, ?_, ?_, ?_⟩ <;>
    norm_num [circumscribed_circle, circumD, specLiteralCenterY, distSq,
      Prod.mk.injEq]

/-- C5 (amended): the circumscribed-circle computation never divides
by a zero determinant: when D = 0 it fails with
DegenerateTripleError (in the exact-rational model the numerical
tolerance is zero); when D is nonzero it returns the circle whose
center_x follows the stated formula and whose center_y uses the
x-coordinate differences of the standard circumcenter formula
(center_y = ((px²+py²)(rx−qx) + (qx²+qy²)(px−rx) + (rx²+ry²)(qx−px)) / D),
with squared radius the squared distance from the center to p — the
unique circle through the three points, as witnessed by the center
being equidistant from p, q and r. -/
theorem circumscribed_circle_guard (p q r : Point) :
    (circumD p q r = 0 →
      circumscribed_circle p q r = Except.error CentroError.DegenerateTripleError)
    ∧ (circumD p q r ≠ 0 →
      ∃ c, circumscribed_circle p q r = Except.ok c ∧
        c.center.1 = ((p.1 ^ 2 + p.2 ^ 2) * (q.2 - r.2) + (q.1 ^ 2 + q.2 ^ 2) * (r.2 - p.2) +
            (r.1 ^ 2 + r.2 ^ 2) * (p.2 - q.2)) / circumD p q r ∧
        c.center.2 = ((p.1 ^ 2 + p.2 ^ 2) * (r.1 - q.1) + (q.1 ^ 2 + q.2 ^ 2) * (p.1 - r.1) +
            (r.1 ^ 2 + r.2 ^ 2) * (q.1 - p.1)) / circumD p q r ∧
        c.rsq = distSq c.center p ∧
        c.rsq = distSq c.center q ∧ c.rsq = distSq c.center r) := by
  constructor
  · intro hD
    simp [circumscribed_circle, hD]
  · intro hD
    have hc : circumscribed_circle p q r = Except.ok
        ⟨((((p.1 ^ 2 + p.2 ^ 2) * (q.2 - r.2) + (q.1 ^ 2 + q.2 ^ 2) * (r.2 - p.2) +
            (r.1 ^ 2 + r.2 ^ 2) * (p.2 - q.2)) / circumD p q r),
          (((p.1 ^ 2 + p.2 ^ 2) * (r.1 - q.1) + (q.1 ^ 2 + q.2 ^ 2) * (p.1 - r.1) +
            (r.1 ^ 2 + r.2 ^ 2) * (q.1 - p.1)) / circumD p q r)),
          distSq ((((p.1 ^ 2 + p.2 ^ 2) * (q.2 - r.2) + (q.1 ^ 2 + q.2 ^ 2) * (r.2 - p.2) +
            (r.1 ^ 2 + r.2 ^ 2) * (p.2 - q.2)) / circumD p q r),
          (((p.1 ^ 2 + p.2 ^ 2) * (r.1 - q.1) + (q.1 ^ 2 + q.2 ^ 2) * (p.1 - r.1) +
            (r.1 ^ 2 + r.2 ^ 2) * (q.1 - p.1)) / circumD p q r)) p⟩ := by
      simp [circumscribed_circle, hD]
    obtain ⟨h1, h2, h3⟩ := circumscribed_circle_on_circle p q r _ hc
    exact ⟨_, hc, rfl, rfl, h1, h2, h3⟩

/-- Witness for C5: at p = (0,0), q = (4,0), r = (0,4) the
determinant is 32 and the returned circle's center is equidistant
from the three points; at the collinear triple (0,0), (1,1), (2,2)
the determinant is 0 and the computation fails with
DegenerateTripleError. -/
theorem circumscribed_circle_guard_witness :
    (∃ c, circumscribed_circle (0, 0) (4, 0) (0, 4) = Except.ok c ∧
      c.rsq = distSq c.center (0, 0) ∧ c.rsq = distSq c.center (4, 0) ∧
      c.rsq = distSq c.center (0, 4))
    ∧ circumscribed_circle (0, 0) (1, 1) (2, 2) =
        Except.error CentroError.DegenerateTripleError := by
  constructor
  · obtain ⟨c, hc, _, _, h1, h2, h3⟩ :=
      (circumscribed_circle_guard (0, 0) (4, 0) (0, 4)).2 (by norm_num [circumD])
    exact ⟨c, hc, h1, h2, h3⟩
  · exact (circumscribed_circle_guard (0, 0) (1, 1) (2, 2)).1 (by norm_num [circumD])

theorem distinctList_length_le (pts : List Point) :
    (distinctList pts).length ≤ pts.length := by
  induction pts with
  | nil => exact Nat.le_refl 0
  | cons p rest ih =>
    simp only [distinctList]
    split
    · exact Nat.le_succ_of_le ih
    · simpa using Nat.succ_le_succ ih

/-- C3: at the hull interface, InsufficientPointsError is raised
exactly when fewer than 3 distinct points are supplied, and
DegenerateHullError exactly when at least 3 distinct points are
supplied but all points are collinear (when both degeneracies hold at
once — at most 2 distinct points are always collinear — the
insufficient-points check fires first); no other error leaves the
hull interface. -/
theorem hull_error_interface (pts : List Point) :
    (hull pts = Except.error CentroError.InsufficientPointsError ↔
      (distinctList pts).length < 3)
    ∧ (hull pts = Except.error CentroError.DegenerateHullError ↔
      (3 ≤ (distinctList pts).length ∧ allCollinear pts = true)) := by
  unfold hull
  by_cases h1 : (distinctList pts).length < 3
  · constructor
    · simp [h1]
    · simp only [if_pos h1]
      constructor
      · intro h; cases h
      · rintro ⟨h3, -⟩; omega
  · by_cases h2 : allCollinear pts = true
    · constructor
      · simp only [if_neg h1, if_pos h2]
        constructor
        · intro h; cases h
        · intro h; omega
      · simp only [if_neg h1, if_pos h2, true_iff]
        exact ⟨by omega, h2⟩
    · constructor
      · simp only [if_neg h1, if_neg h2]
        constructor
        · intro h; cases h
        · intro h; omega
      · simp only [if_neg h1, if_neg h2]
        constructor
        · intro h; cases h
        · rintro ⟨-, hc⟩; exact absurd hc h2

/-- C6: minimum_enclosing_circle (with the input routed through the
Hull Provider) raises a documented error and never returns a Circle
for a 1-point input, a 2-point input, or an input whose points are
all collinear. -/
theorem mec_degenerate_rejection (pts : List Point)
    (h : pts.length = 1 ∨ pts.length = 2 ∨ allCollinear pts = true) :
    ∃ e, minimum_enclosing_circle pts false = Except.error e := by
  suffices hs : ∃ e, hull pts = Except.error e by
    obtain ⟨e, he⟩ := hs
    exact ⟨e, by simp [minimum_enclosing_circle, he]⟩
  by_cases h1 : (distinctList pts).length < 3
  · exact ⟨CentroError.InsufficientPointsError, by simp [hull, h1]⟩
  · have hcol : allCollinear pts = true := by
      rcases h with hl | hl | hc
      · exfalso; have := distinctList_length_le pts; omega
      · exfalso; have := distinctList_length_le pts; omega
      · exact hc
    exact ⟨CentroError.DegenerateHullError, by simp [hull, h1, hcol]⟩

/-- Witness for C6: a 1-point input, a 2-point input and a collinear
4-point input each make minimum_enclosing_circle fail with one of the
documented errors. -/
theorem mec_degenerate_rejection_witness :
    (∃ e, minimum_enclosing_circle [((1 : ℚ), 1)] false = Except.error e)
    ∧ (∃ e, minimum_enclosing_circle [((1 : ℚ), 1), (2, 2)] false = Except.error e)
    ∧ (∃ e, minimum_enclosing_circle [((0 : ℚ), 0), (1, 1), (2, 2), (3, 3)] false =
        Except.error e) := by
  refine ⟨mec_degenerate_rejection _ ?_, mec_degenerate_rejection _ ?_,
    mec_degenerate_rejection _ ?_⟩
  · left; rfl
  · right; left; rfl
  · right; right
    norm_num [allCollinear, cross, List.all]

theorem qnormSq_pos {p q : Point} (h : p ≠ q) : 0 < qnormSq p q := by
  have hcoord : p.1 ≠ q.1 ∨ p.2 ≠ q.2 := by
    by_contra hc
    push_neg at hc
    exact h (Prod.ext hc.1 hc.2)
  unfold qnormSq
  rcases hcoord with h1 | h2
  · have hx : 0 < (p.1 - q.1) ^ 2 := pow_two_pos_of_ne_zero (sub_ne_zero.mpr h1)
    have hy := sq_nonneg (p.2 - q.2)
    linarith
  · have hy : 0 < (p.2 - q.2) ^ 2 := pow_two_pos_of_ne_zero (sub_ne_zero.mpr h2)
    have hx := sq_nonneg (p.1 - q.1)
    linarith

theorem vertex_angle_gt_iff {p q r : Point} (hp : p ≠ q) (hr : r ≠ q) :
    Real.pi / 2 < vertex_angle p q r ↔ qdot p q r < 0 := by
  have hs1 : (0 : ℝ) < Real.sqrt (qnormSq p q) :=
    Real.sqrt_pos.mpr (by exact_mod_cast qnormSq_pos hp)
  have hs2 : (0 : ℝ) < Real.sqrt (qnormSq r q) :=
    Real.sqrt_pos.mpr (by exact_mod_cast qnormSq_pos hr)
  unfold vertex_angle
  rw [← not_le, Real.arccos_le_pi_div_two, not_le,
    div_lt_iff₀ (mul_pos hs1 hs2), zero_mul]
  exact_mod_cast Iff.rfl

theorem vertex_angle_le_iff {p q r : Point} (hp : p ≠ q) (hr : r ≠ q) :
    vertex_angle p q r ≤ Real.pi / 2 ↔ 0 ≤ qdot p q r := by
  have hs1 : (0 : ℝ) < Real.sqrt (qnormSq p q) :=
    Real.sqrt_pos.mpr (by exact_mod_cast qnormSq_pos hp)
  have hs2 : (0 : ℝ) < Real.sqrt (qnormSq r q) :=
    Real.sqrt_pos.mpr (by exact_mod_cast qnormSq_pos hr)
  unfold vertex_angle
  rw [Real.arccos_le_pi_div_two, le_div_iff₀ (mul_pos hs1 hs2), zero_mul]
  exact_mod_cast Iff.rfl

theorem rangeFrom_length : ∀ (n s : Nat), (rangeFrom s n).length = n
  | 0, _ => rfl
  | n + 1, s => by simp [rangeFrom, rangeFrom_length n (s + 1)]

theorem mem_rangeFrom : ∀ (n s i : Nat), i ∈ rangeFrom s n → i < s + n := by
  intro n
  induction n with
  | zero => intro s i h; simp [rangeFrom] at h
  | succ m ih =>
    intro s i h
    simp only [rangeFrom, List.mem_cons] at h
    rcases h with rfl | h
    · omega
    · have := ih (s + 1) i h; omega

theorem rangeFrom_getD : ∀ (n s j : Nat), j < n → (rangeFrom s n).getD j 0 = s + j := by
  intro n
  induction n with
  | zero => intro s j h; omega
  | succ m ih =>
    intro s j h
    cases j with
    | zero => simp [rangeFrom]
    | succ j' =>
      simp only [rangeFrom, List.getD_cons_succ]
      rw [ih (s + 1) j' (by omega)]
      omega

theorem vkeys_ok (pts : List Point) : ∀ (idxs : List Nat) (keys : List VKey),
    vkeys pts idxs = Except.ok keys →
    keys.length = idxs.length ∧
    ∀ j, j < idxs.length →
      vkeyAt pts (idxs.getD j 0) = Except.ok (keys.getD j default) := by
  intro idxs
  induction idxs with
  | nil =>
    intro keys h
    simp only [vkeys, Except.ok.injEq] at h
    subst h
    exact ⟨rfl, fun j hj => absurd hj (Nat.not_lt_zero j)⟩
  | cons i rest ih =>
    intro keys h
    unfold vkeys at h
    split at h
    · cases h
    next k hk =>
      split at h
      · cases h
      next ks hks =>
        simp only [Except.ok.injEq] at h
        subst h
        obtain ⟨hlen, hall⟩ := ih ks hks
        refine ⟨by simp [hlen], ?_⟩
        intro j hj
        cases j with
        | zero => simpa using hk
        | succ j' =>
          simp only [List.getD_cons_succ, List.length_cons] at *
          exact hall j' (by omega)

theorem selectIdx_lt (keys : List VKey) (h : keys ≠ []) :
    selectIdx keys < keys.length := by
  have hgen : ∀ (l : List Nat) (b : Nat), (∀ i ∈ l, i < keys.length) →
      b < keys.length →
      l.foldl (fun best i =>
        if keyGt (keys.getD i default) (keys.getD best default) then i else best) b <
        keys.length := by
    intro l
    induction l with
    | nil => intro b _ hb; exact hb
    | cons i rest ih =>
      intro b hall hb
      simp only [List.foldl_cons]
      apply ih
      · exact fun x hx => hall x (List.mem_cons_of_mem i hx)
      · by_cases hg : keyGt (keys.getD i default) (keys.getD b default) = true
        · rw [if_pos hg]; exact hall i (List.mem_cons_self i rest)
        · rw [if_neg hg]; exact hb
  unfold selectIdx
  apply hgen
  · intro i hi
    have := mem_rangeFrom keys.length 0 i hi
    omega
  · exact List.length_pos.mpr h

theorem vkeyAt_ok {pts : List Point} {i : Nat} {k : VKey}
    (h : vkeyAt pts i = Except.ok k) :
    (tripleAt pts i).1 ≠ (tripleAt pts i).2.1 ∧
    (tripleAt pts i).2.2 ≠ (tripleAt pts i).2.1 ∧
    circumscribed_circle (tripleAt pts i).1 (tripleAt pts i).2.1
      (tripleAt pts i).2.2 = Except.ok k.circ ∧
    k.d = qdot (tripleAt pts i).1 (tripleAt pts i).2.1 (tripleAt pts i).2.2 := by
  simp only [vkeyAt] at h
  split at h
  · cases h
  next hne =>
    push_neg at hne
    split at h
    · cases h
    next c hc =>
      simp only [Except.ok.injEq] at h
      subst h
      exact ⟨hne.1, hne.2, hc, rfl⟩

/-- C4: in an ACTIVE iteration of the Skyum Reducer (working sequence
of at least 3 points, all per-vertex keys computed), with i the
selected index and (p, q, r) the selected vertex's triple: if the
selected vertex's angle exceeds pi/2 radians then the step removes
exactly that vertex by position (eraseIdx, preserving the order of
the remaining vertices) and stays ACTIVE; otherwise the step
transitions to DONE returning the circumscribed circle of the
selected vertex's triple at this iteration. -/
theorem skyum_step_transition (pts : List Point) (keys : List VKey) (i : Nat)
    (p q r : Point) (h3 : 3 ≤ pts.length)
    (hk : vkeys pts (rangeFrom 0 pts.length) = Except.ok keys)
    (hi : i = selectIdx keys)
    (ht : tripleAt pts i = (p, q, r)) :
    (Real.pi / 2 < vertex_angle p q r →
      skyumStep pts = Except.ok (StepResult.ACTIVE (pts.eraseIdx i)))
    ∧ (vertex_angle p q r ≤ Real.pi / 2 →
      ∃ c, circumscribed_circle p q r = Except.ok c ∧
        skyumStep pts = Except.ok (StepResult.DONE c)) := by
  obtain ⟨hlen, hall⟩ := vkeys_ok pts _ keys hk
  rw [rangeFrom_length] at hlen
  have hkeysne : keys ≠ [] := by
    intro hnil
    rw [hnil] at hlen
    simp at hlen
    omega
  have hisel : i < keys.length := hi ▸ selectIdx_lt keys hkeysne
  have hvk : vkeyAt pts i = Except.ok (keys.getD i default) := by
    have hh := hall i (by rw [rangeFrom_length]; omega)
    rwa [rangeFrom_getD _ _ _ (by omega), Nat.zero_add] at hh
  obtain ⟨hp, hr, hcirc, hd⟩ := vkeyAt_ok hvk
  rw [ht] at hp hr hcirc hd
  simp only at hp hr hcirc hd
  have hstep : skyumStep pts =
      (if (keys.getD (selectIdx keys) default).d < 0 then
        Except.ok (StepResult.ACTIVE (pts.eraseIdx (selectIdx keys)))
      else Except.ok (StepResult.DONE (keys.getD (selectIdx keys) default).circ)) := by
    simp only [skyumStep, hk]
  constructor
  · intro hang
    have hneg : qdot p q r < 0 := (vertex_angle_gt_iff hp hr).mp hang
    rw [hstep, ← hi, if_pos (by rw [hd]; exact hneg)]
  · intro hang
    have hpos : 0 ≤ qdot p q r := (vertex_angle_le_iff hp hr).mp hang
    refine ⟨(keys.getD i default).circ, hcirc, ?_⟩
    rw [hstep, ← hi, if_neg (by rw [hd]; exact not_lt.mpr hpos)]

/-- Witness for C4, both branches.  On the hull sequence
(0,0),(4,0),(43/10,1),(4,2),(0,2) the selected vertex is (43/10,1)
at position 2, its angle is obtuse, and the step removes exactly it,
staying ACTIVE.  On the square hull (0,0),(2,0),(2,2),(0,2) every
vertex angle is exactly pi/2, the selected vertex is position 0, and
the step is DONE with the circle through its triple: center (1,1),
squared radius 2. -/
theorem skyum_step_transition_witness :
    skyumStep [((0 : ℚ), 0), (4, 0), (43 / 10, 1), (4, 2), (0, 2)] =
      Except.ok (StepResult.ACTIVE [((0 : ℚ), 0), (4, 0), (4, 2), (0, 2)])
    ∧ skyumStep [((0 : ℚ), 0), (2, 0), (2, 2), (0, 2)] =
      Except.ok (StepResult.DONE ⟨(1, 1), 2⟩) := by
  constructor
  · have h := skyum_step_transition
      [((0 : ℚ), 0), (4, 0), (43 / 10, 1), (4, 2), (0, 2)]
      [⟨0, 64, ⟨(2, 1), 5⟩⟩,
       ⟨-(6 / 5), 436 / 25, ⟨(2, 229 / 200), 212441 / 40000⟩⟩,
       ⟨-(91 / 100), 11881 / 10000, ⟨(149 / 60, 1), 11881 / 3600⟩⟩,
       ⟨-(6 / 5), 436 / 25, ⟨(2, 171 / 200), 212441 / 40000⟩⟩,
       ⟨0, 64, ⟨(2, 1), 5⟩⟩]
      2 (4, 0) (43 / 10, 1) (4, 2) (by norm_num)
      (by norm_num [-Prod.mk_zero_zero, vkeys, vkeyAt, rangeFrom, tripleAt,
        circumscribed_circle, circumD, distSq, qdot, qnormSq, List.getD,
        Prod.mk.injEq])
      (by norm_num [selectIdx, rangeFrom, keyGt, cosLt, List.getD])
      (by norm_num [-Prod.mk_zero_zero, tripleAt, List.getD, Prod.mk.injEq])
    have hang : Real.pi / 2 < vertex_angle (4, 0) (43 / 10, 1) (4, 2) := by
      refine (vertex_angle_gt_iff ?_ ?_).mpr (by norm_num [qdot]) <;>
        simp [Prod.ext_iff]
    exact (h.1 hang).trans (by rfl)
  · have h := skyum_step_transition
      [((0 : ℚ), 0), (2, 0), (2, 2), (0, 2)]
      [⟨0, 16, ⟨(1, 1), 2⟩⟩, ⟨0, 16, ⟨(1, 1), 2⟩⟩,
       ⟨0, 16, ⟨(1, 1), 2⟩⟩, ⟨0, 16, ⟨(1, 1), 2⟩⟩]
      0 (0, 2) (0, 0) (2, 0) (by norm_num)
      (by norm_num [-Prod.mk_zero_zero, vkeys, vkeyAt, rangeFrom, tripleAt,
        circumscribed_circle, circumD, distSq, qdot, qnormSq, List.getD,
        Prod.mk.injEq])
      (by norm_num [selectIdx, rangeFrom, keyGt, cosLt, List.getD])
      (by norm_num [-Prod.mk_zero_zero, tripleAt, List.getD, Prod.mk.injEq])
    have hang : vertex_angle (0, 2) (0, 0) (2, 0) ≤ Real.pi / 2 := by
      refine (vertex_angle_le_iff ?_ ?_).mpr (by norm_num [qdot]) <;>
        simp [Prod.ext_iff]
    obtain ⟨c, hc, hstep⟩ := h.2 hang
    have hcval : circumscribed_circle ((0 : ℚ), 2) (0, 0) (2, 0) =
        Except.ok ⟨(1, 1), 2⟩ := by
      norm_num [-Prod.mk_zero_zero, circumscribed_circle, circumD, distSq,
        Prod.mk.injEq]
    rw [hcval] at hc
    cases hc
    exact hstep

/-- C1 counterexample: the convex position input
(0,0), (4,0), (43/10,1), (4,2), (0,2) is accepted by
minimum_enclosing_circle, which first removes the selected obtuse
vertex (43/10,1) and then terminates on the remaining rectangle,
returning the circle with center (2,1) and squared radius 5; but the
removed original point (43/10,1) lies at squared distance 529/100 > 5
from that center (distance 2.3 against radius sqrt 5 ≈ 2.236, far
beyond numerical tolerance), so the returned Circle does not enclose
the whole original set. -/
theorem mec_enclosure_counterexample :
    minimum_enclosing_circle [((0 : ℚ), 0), (4, 0), (43 / 10, 1), (4, 2), (0, 2)]
      false = Except.ok ⟨(2, 1), 5⟩
    ∧ ((43 / 10 : ℚ), (1 : ℚ)) ∈ [((0 : ℚ), 0), (4, 0), (43 / 10, 1), (4, 2), (0, 2)]
    ∧ 5 < distSq (2, 1) (43 / 10, 1) := by
  refine ⟨?_, by norm_num, by norm_num [distSq]⟩
  norm_num [-Prod.mk_zero_zero, minimum_enclosing_circle, hull, hullCCW,
    halfChain, chainPush, lexLe, allCollinear, cross, distinctList,
    insertionSort, insertSorted, List.all, skyum, skyumIter, skyumStep, vkeys,
    vkeyAt, rangeFrom, tripleAt, circumscribed_circle, circumD, distSq, qdot,
    qnormSq, selectIdx, keyGt, cosLt, List.eraseIdx, List.getD, Prod.mk.injEq]

theorem chainPush_subset : ∀ (st : List Point) (p x : Point),
    x ∈ chainPush st p → x = p ∨ x ∈ st := by
  intro st
  induction st with
  | nil =>
    intro p x h
    simp only [chainPush, List.mem_singleton] at h
    exact Or.inl h
  | cons b rest ih =>
    cases rest with
    | nil =>
      intro p x h
      simp only [chainPush, List.mem_cons, List.not_mem_nil, or_false] at h
      rcases h with h | h
      · exact Or.inl h
      · exact Or.inr (by simp [h])
    | cons a rest' =>
      intro p x h
      rw [chainPush] at h
      by_cases hc : cross a b p ≤ 0
      · rw [if_pos hc] at h
        rcases ih p x h with h1 | h2
        · exact Or.inl h1
        · exact Or.inr (List.mem_cons_of_mem b h2)
      · rw [if_neg hc] at h
        simpa using h

theorem foldl_chainPush_subset : ∀ (l st : List Point) (x : Point),
    x ∈ l.foldl chainPush st → x ∈ l ∨ x ∈ st := by
  intro l
  induction l with
  | nil => intro st x h; exact Or.inr h
  | cons p rest ih =>
    intro st x h
    simp only [List.foldl_cons] at h
    rcases ih _ x h with h1 | h2
    · exact Or.inl (List.mem_cons_of_mem p h1)
    · rcases chainPush_subset st p x h2 with rfl | h3
      · exact Or.inl (List.mem_cons_self _ _)
      · exact Or.inr h3

theorem halfChain_subset (pts : List Point) (x : Point)
    (h : x ∈ halfChain pts) : x ∈ pts := by
  unfold halfChain at h
  rw [List.mem_reverse] at h
  rcases foldl_chainPush_subset pts [] x h with h1 | h2
  · exact h1
  · simp at h2

theorem hullCCW_subset (pts : List Point) (x : Point)
    (h : x ∈ hullCCW pts) : x ∈ pts := by
  unfold hullCCW at h
  rcases List.mem_append.mp h with h1 | h2
  · exact halfChain_subset _ _ (List.dropLast_subset _ h1)
  · exact List.mem_reverse.mp (halfChain_subset _ _ (List.dropLast_subset _ h2))

theorem insertSorted_subset {le : Point → Point → Bool} (a x : Point) :
    ∀ l : List Point, x ∈ insertSorted le a l → x = a ∨ x ∈ l := by
  intro l
  induction l with
  | nil => intro h; simpa [insertSorted] using h
  | cons y ys ih =>
    intro h
    rw [insertSorted] at h
    by_cases hc : le a y = true
    · rw [if_pos hc] at h
      simpa using h
    · rw [if_neg hc] at h
      simp only [List.mem_cons] at h
      rcases h with h | h
      · exact Or.inr (by simp [h])
      · rcases ih h with h1 | h2
        · exact Or.inl h1
        · exact Or.inr (List.mem_cons_of_mem y h2)

theorem insertionSort_subset {le : Point → Point → Bool} (x : Point) :
    ∀ l : List Point, x ∈ insertionSort le l → x ∈ l := by
  intro l
  induction l with
  | nil => intro h; simpa [insertionSort] using h
  | cons y ys ih =>
    intro h
    rw [insertionSort] at h
    rcases insertSorted_subset y x _ h with rfl | h2
    · exact List.mem_cons_self _ _
    · exact List.mem_cons_of_mem y (ih h2)

theorem distinctList_subset (x : Point) :
    ∀ pts : List Point, x ∈ distinctList pts → x ∈ pts := by
  intro pts
  induction pts with
  | nil => intro h; simpa [distinctList] using h
  | cons p rest ih =>
    intro h
    rw [distinctList] at h
    by_cases hc : p ∈ rest
    · rw [if_pos hc] at h
      exact List.mem_cons_of_mem p (ih h)
    · rw [if_neg hc] at h
      simp only [List.mem_cons] at h
      rcases h with h | h
      · exact List.mem_cons.mpr (Or.inl h)
      · exact List.mem_cons_of_mem p (ih h)

theorem hull_subset (pts L : List Point) (h : hull pts = Except.ok L)
    (x : Point) (hx : x ∈ L) : x ∈ pts := by
  simp only [hull] at h
  by_cases h1 : (distinctList pts).length < 3
  · rw [if_pos h1] at h; cases h
  · rw [if_neg h1] at h
    by_cases h2 : allCollinear pts = true
    · rw [if_pos h2] at h; cases h
    · rw [if_neg h2] at h
      simp only [Except.ok.injEq] at h
      subst h
      exact distinctList_subset x pts
        (insertionSort_subset x _ (hullCCW_subset _ x hx))

theorem getD_mem {l : List Point} {i : Nat} (h : i < l.length) (d : Point) :
    l.getD i d ∈ l := by
  rw [List.getD_eq_getElem?_getD, List.getElem?_eq_getElem h]
  exact List.getElem_mem h

theorem tripleAt_mem (w : List Point) (i : Nat) (hi : i < w.length) :
    (tripleAt w i).1 ∈ w ∧ (tripleAt w i).2.1 ∈ w ∧ (tripleAt w i).2.2 ∈ w := by
  have hw : 0 < w.length := Nat.lt_of_le_of_lt (Nat.zero_le i) hi
  exact ⟨getD_mem (Nat.mod_lt _ hw) _, getD_mem hi _, getD_mem (Nat.mod_lt _ hw) _⟩

theorem circumscribed_circle_ok_D {p q r : Point} {c : Circle}
    (h : circumscribed_circle p q r = Except.ok c) : circumD p q r ≠ 0 := by
  intro hD
  simp [circumscribed_circle, hD] at h

theorem circumD_ne_zero_distinct {p q r : Point} (h : circumD p q r ≠ 0) :
    p ≠ q ∧ q ≠ r ∧ p ≠ r := by
  refine ⟨?_, ?_, ?_⟩
  · rintro rfl; exact h (by unfold circumD; ring)
  · rintro rfl; exact h (by unfold circumD; ring)
  · rintro rfl; exact h (by unfold circumD; ring)

theorem skyumStep_active {w rest : List Point}
    (h : skyumStep w = Except.ok (StepResult.ACTIVE rest)) :
    ∃ i, rest = w.eraseIdx i := by
  simp only [skyumStep] at h
  split at h
  · cases h
  · split at h
    · simp only [Except.ok.injEq, StepResult.ACTIVE.injEq] at h
      exact ⟨_, h.symm⟩
    · cases h

theorem skyumStep_done {w : List Point} {c : Circle} (h3 : 3 ≤ w.length)
    (h : skyumStep w = Except.ok (StepResult.DONE c)) :
    ∃ p q r, p ∈ w ∧ q ∈ w ∧ r ∈ w ∧
      circumscribed_circle p q r = Except.ok c := by
  simp only [skyumStep] at h
  split at h
  · cases h
  next keys hk =>
    split at h
    · cases h
    · simp only [Except.ok.injEq, StepResult.DONE.injEq] at h
      obtain ⟨hlen, hall⟩ := vkeys_ok w _ keys hk
      rw [rangeFrom_length] at hlen
      have hne : keys ≠ [] := by
        intro hnil
        rw [hnil] at hlen
        simp at hlen
        omega
      have hi : selectIdx keys < keys.length := selectIdx_lt keys hne
      have hvk := hall (selectIdx keys) (by rw [rangeFrom_length]; omega)
      rw [rangeFrom_getD _ _ _ (by omega), Nat.zero_add] at hvk
      obtain ⟨-, -, hcirc, -⟩ := vkeyAt_ok hvk
      obtain ⟨m1, m2, m3⟩ := tripleAt_mem w (selectIdx keys) (by omega)
      exact ⟨_, _, _, m1, m2, m3, by rw [hcirc, h]⟩

theorem skyumIter_done : ∀ (fuel : Nat) (w : List Point) (c : Circle),
    skyumIter fuel w = Except.ok c →
    ∃ w', (∀ x ∈ w', x ∈ w) ∧ 3 ≤ w'.length ∧
      skyumStep w' = Except.ok (StepResult.DONE c) := by
  intro fuel
  induction fuel with
  | zero => intro w c h; cases h
  | succ f ih =>
    intro w c h
    unfold skyumIter at h
    split at h
    · cases h
    next h3 =>
      split at h
      · cases h
      next c' hdone =>
        simp only [Except.ok.injEq] at h
        subst h
        exact ⟨w, fun x hx => hx, by omega, hdone⟩
      next rest hactive =>
        obtain ⟨w', hsub, hlen, hstep⟩ := ih rest c h
        obtain ⟨i, rfl⟩ := skyumStep_active hactive
        exact ⟨w', fun x hx => List.eraseIdx_subset _ _ (hsub x hx), hlen, hstep⟩

/-- C1 (amended): for every input accepted by
minimum_enclosing_circle, the returned Circle is the circumscribed
circle of three pairwise distinct points of the original input set
(the selected vertex's triple at the final iteration) and its center
is equidistant from those three points — they lie exactly on the
returned Circle.  Enclosure of the whole original set does not hold:
as the counterexample shows, a vertex removed during iteration can
end up strictly outside the returned Circle. -/
theorem mec_circle_through_determining_triple (pts : List Point) (ah : Bool)
    (c : Circle) (h : minimum_enclosing_circle pts ah = Except.ok c) :
    ∃ p q r, p ∈ pts ∧ q ∈ pts ∧ r ∈ pts ∧ p ≠ q ∧ q ≠ r ∧ p ≠ r ∧
      circumscribed_circle p q r = Except.ok c ∧
      c.rsq = distSq c.center p ∧ c.rsq = distSq c.center q ∧
      c.rsq = distSq c.center r := by
  have hred : ∃ w : List Point, (∀ x ∈ w, x ∈ pts) ∧ skyum w = Except.ok c := by
    cases ah with
    | true =>
      refine ⟨pts, fun x hx => hx, ?_⟩
      simpa [minimum_enclosing_circle] using h
    | false =>
      simp only [minimum_enclosing_circle, Bool.false_eq_true, if_false] at h
      split at h
      · cases h
      next hl hhl => exact ⟨hl, fun x hx => hull_subset pts hl hhl x hx, h⟩
  obtain ⟨w, hw, hsk⟩ := hred
  unfold skyum at hsk
  obtain ⟨w', hsub, hlen, hstep⟩ := skyumIter_done _ _ _ hsk
  obtain ⟨p, q, r, hp, hq, hr, hcirc⟩ := skyumStep_done hlen hstep
  obtain ⟨h1, h2, h3⟩ := circumD_ne_zero_distinct (circumscribed_circle_ok_D hcirc)
  obtain ⟨e1, e2, e3⟩ := circumscribed_circle_on_circle _ _ _ _ hcirc
  exact ⟨p, q, r, hw _ (hsub _ hp), hw _ (hsub _ hq), hw _ (hsub _ hr),
    h1, h2, h3, hcirc, e1, e2, e3⟩

/-- Witness for C1 (amended) at the square input: the returned circle
(center (1,1), squared radius 2) is the circumscribed circle of three
distinct corners of the square, all exactly on it. -/
theorem mec_circle_through_determining_triple_witness :
    ∃ p q r,
      p ∈ [((0 : ℚ), 0), (2, 0), (2, 2), (0, 2)] ∧
      q ∈ [((0 : ℚ), 0), (2, 0), (2, 2), (0, 2)] ∧
      r ∈ [((0 : ℚ), 0), (2, 0), (2, 2), (0, 2)] ∧
      p ≠ q ∧ q ≠ r ∧ p ≠ r ∧
      circumscribed_circle p q r = Except.ok ⟨(1, 1), 2⟩ ∧
      (Circle.mk (1, 1) 2).rsq = distSq (Circle.mk (1, 1) 2).center p ∧
      (Circle.mk (1, 1) 2).rsq = distSq (Circle.mk (1, 1) 2).center q ∧
      (Circle.mk (1, 1) 2).rsq = distSq (Circle.mk (1, 1) 2).center r := by
  apply mec_circle_through_determining_triple
    [((0 : ℚ), 0), (2, 0), (2, 2), (0, 2)] false ⟨(1, 1), 2⟩
  norm_num [-Prod.mk_zero_zero, minimum_enclosing_circle, hull, hullCCW,
    halfChain, chainPush, lexLe, allCollinear, cross, distinctList,
    insertionSort, insertSorted, List.all, skyum, skyumIter, skyumStep, vkeys,
    vkeyAt, rangeFrom, tripleAt, circumscribed_circle, circumD, distSq, qdot,
    qnormSq, selectIdx, keyGt, cosLt, List.eraseIdx, List.getD, Prod.mk.injEq]


/-! C2 development: order, sorting and distinctness infrastructure. -/

/-- Strict lexicographic order on points, x first. -/
def lexLt (a b : Point) : Prop := a.1 < b.1 ∨ (a.1 = b.1 ∧ a.2 < b.2)

/-- Reflexive closure of lexLt. -/
def lexLe' (a b : Point) : Prop := lexLt a b ∨ a = b

theorem lexLt_iff_lexLe_ne (a b : Point) : lexLt a b ↔ (lexLe a b = true ∧ a ≠ b) := by
  unfold lexLt lexLe
  constructor
  · rintro (h | ⟨h1, h2⟩)
    · constructor
      · simp [h]
      · intro he; rw [he] at h; exact lt_irrefl _ h
    · constructor
      · simp [h1, le_of_lt h2]
      · intro he; rw [he] at h2; exact lt_irrefl _ h2
  · rintro ⟨h1, h2⟩
    simp only [Bool.or_eq_true, Bool.and_eq_true, decide_eq_true_eq, beq_iff_eq] at h1
    rcases h1 with h | ⟨hx, hy⟩
    · exact Or.inl h
    · rcases lt_or_eq_of_le hy with h | h
      · exact Or.inr ⟨hx, h⟩
      · exact absurd (Prod.ext hx h) h2

theorem lexLe_total (a b : Point) : lexLe a b = true ∨ lexLe b a = true := by
  unfold lexLe
  by_cases h1 : a.1 < b.1
  · left; simp [h1]
  · by_cases h2 : b.1 < a.1
    · right; simp [h2]
    · have hx : a.1 = b.1 := le_antisymm (not_lt.mp h2) (not_lt.mp h1)
      by_cases h3 : a.2 ≤ b.2
      · left; simp [hx, h3]
      · right; simp [hx.symm, le_of_lt (not_le.mp h3)]

theorem lexLe_trans {a b c : Point} (h1 : lexLe a b = true) (h2 : lexLe b c = true) :
    lexLe a c = true := by
  unfold lexLe at *
  simp only [Bool.or_eq_true, Bool.and_eq_true, decide_eq_true_eq, beq_iff_eq] at *
  rcases h1 with h1 | ⟨h1x, h1y⟩ <;> rcases h2 with h2 | ⟨h2x, h2y⟩
  · exact Or.inl (lt_trans h1 h2)
  · exact Or.inl (h2x ▸ h1)
  · exact Or.inl (h1x ▸ h2)
  · exact Or.inr ⟨h1x.trans h2x, le_trans h1y h2y⟩

theorem lexLt_trans {a b c : Point} (h1 : lexLt a b) (h2 : lexLt b c) : lexLt a c := by
  unfold lexLt at *
  rcases h1 with h1 | ⟨h1x, h1y⟩ <;> rcases h2 with h2 | ⟨h2x, h2y⟩
  · exact Or.inl (lt_trans h1 h2)
  · exact Or.inl (h2x ▸ h1)
  · exact Or.inl (h1x ▸ h2)
  · exact Or.inr ⟨h1x.trans h2x, lt_trans h1y h2y⟩

theorem lexLt_irrefl (a : Point) : ¬ lexLt a a := by
  unfold lexLt
  rintro (h | ⟨-, h⟩) <;> exact lt_irrefl _ h

theorem lexLt_ne {a b : Point} (h : lexLt a b) : a ≠ b := by
  rintro rfl; exact lexLt_irrefl a h

theorem lexLe'_trans {a b c : Point} (h1 : lexLe' a b) (h2 : lexLe' b c) : lexLe' a c := by
  rcases h1 with h1 | rfl
  · rcases h2 with h2 | rfl
    · exact Or.inl (lexLt_trans h1 h2)
    · exact Or.inl h1
  · exact h2

theorem lexLt_le'_trans {a b c : Point} (h1 : lexLt a b) (h2 : lexLe' b c) : lexLt a c := by
  rcases h2 with h2 | rfl
  · exact lexLt_trans h1 h2
  · exact h1

theorem lexLe'_lt_trans {a b c : Point} (h1 : lexLe' a b) (h2 : lexLt b c) : lexLt a c := by
  rcases h1 with h1 | rfl
  · exact lexLt_trans h1 h2
  · exact h2

theorem lexLt_x_le {a b : Point} (h : lexLt a b) : a.1 ≤ b.1 := by
  rcases h with h | ⟨hx, -⟩
  · exact le_of_lt h
  · exact le_of_eq hx

theorem lexLe'_x_le {a b : Point} (h : lexLe' a b) : a.1 ≤ b.1 := by
  rcases h with h | rfl
  · exact lexLt_x_le h
  · exact le_refl _

theorem lexLt_y_lt_of_x_eq {a b : Point} (h : lexLt a b) (hx : a.1 = b.1) : a.2 < b.2 := by
  rcases h with h | ⟨-, hy⟩
  · exact absurd hx (ne_of_lt h)
  · exact hy

theorem lexLe'_y_le_of_x_eq {a b : Point} (h : lexLe' a b) (hx : a.1 = b.1) : a.2 ≤ b.2 := by
  rcases h with h | rfl
  · exact le_of_lt (lexLt_y_lt_of_x_eq h hx)
  · exact le_refl _

theorem insertSorted_perm {α : Type} (le : α → α → Bool) (x : α) :
    ∀ l : List α, (insertSorted le x l).Perm (x :: l) := by
  intro l
  induction l with
  | nil => simp [insertSorted]
  | cons y ys ih =>
    rw [insertSorted]
    by_cases hc : le x y = true
    · rw [if_pos hc]
    · rw [if_neg hc]
      exact (List.Perm.cons y ih).trans (List.Perm.swap x y ys)

theorem insertionSort_perm {α : Type} (le : α → α → Bool) :
    ∀ l : List α, (insertionSort le l).Perm l := by
  intro l
  induction l with
  | nil => simp [insertionSort]
  | cons y ys ih =>
    rw [insertionSort]
    exact (insertSorted_perm le y (insertionSort le ys)).trans (List.Perm.cons y ih)

theorem insertSorted_pairwise (x : Point) :
    ∀ l : List Point, List.Pairwise (fun a b => lexLe a b = true) l →
      List.Pairwise (fun a b => lexLe a b = true) (insertSorted lexLe x l) := by
  intro l
  induction l with
  | nil => intro h; simp [insertSorted]
  | cons y ys ih =>
    intro h
    rw [insertSorted]
    rcases List.pairwise_cons.mp h with ⟨hy, hys⟩
    by_cases hc : lexLe x y = true
    · rw [if_pos hc]
      refine List.pairwise_cons.mpr ⟨?_, h⟩
      intro z hz
      rcases List.mem_cons.mp hz with rfl | hz
      · exact hc
      · exact lexLe_trans hc (hy z hz)
    · rw [if_neg hc]
      refine List.pairwise_cons.mpr ⟨?_, ih hys⟩
      intro z hz
      rcases List.mem_cons.mp ((insertSorted_perm lexLe x ys).mem_iff.mp hz) with rfl | hz
      · rcases lexLe_total y z with h1 | h1
        · exact h1
        · exact absurd h1 hc
      · exact hy z hz

theorem insertionSort_pairwise :
    ∀ l : List Point, List.Pairwise (fun a b => lexLe a b = true) (insertionSort lexLe l) := by
  intro l
  induction l with
  | nil => simp [insertionSort]
  | cons y ys ih =>
    rw [insertionSort]
    exact insertSorted_pairwise y _ ih

theorem distinctList_nodup : ∀ pts : List Point, (distinctList pts).Nodup := by
  intro pts
  induction pts with
  | nil => simp [distinctList]
  | cons p rest ih =>
    rw [distinctList]
    by_cases hc : p ∈ rest
    · rw [if_pos hc]; exact ih
    · rw [if_neg hc]
      refine List.nodup_cons.mpr ⟨?_, ih⟩
      intro hmem
      exact hc (distinctList_subset p rest hmem)

theorem mem_distinctList {x : Point} : ∀ {pts : List Point}, x ∈ pts → x ∈ distinctList pts := by
  intro pts
  induction pts with
  | nil => intro h; cases h
  | cons p rest ih =>
    intro h
    rw [distinctList]
    by_cases hc : p ∈ rest
    · rw [if_pos hc]
      rcases List.mem_cons.mp h with rfl | h
      · exact ih hc
      · exact ih h
    · rw [if_neg hc]
      rcases List.mem_cons.mp h with rfl | h
      · exact List.mem_cons_self _ _
      · exact List.mem_cons_of_mem _ (ih h)

/-- The working list of the hull construction: the distinct input
points in ascending lexicographic order. -/
def sortedPts (pts : List Point) : List Point := insertionSort lexLe (distinctList pts)

theorem sortedPts_pairwise_lexLt (pts : List Point) :
    List.Pairwise lexLt (sortedPts pts) := by
  have hle := insertionSort_pairwise (distinctList pts)
  have hnd : (sortedPts pts).Nodup :=
    (insertionSort_perm lexLe (distinctList pts)).nodup_iff.mpr (distinctList_nodup pts)
  have := List.Pairwise.and hle hnd
  exact this.imp fun {a b} ⟨h1, h2⟩ => (lexLt_iff_lexLe_ne a b).mpr ⟨h1, h2⟩

theorem mem_sortedPts {x : Point} {pts : List Point} : x ∈ sortedPts pts ↔ x ∈ pts := by
  rw [sortedPts, (insertionSort_perm lexLe (distinctList pts)).mem_iff]
  exact ⟨fun h => distinctList_subset x pts h, fun h => mem_distinctList h⟩


/-! C2 development: cross-product identities and sign-transfer lemmas. -/

theorem crossId_T1 (a b p y : Point) :
    cross a p y * (b.1 - a.1) =
      cross a b y * (p.1 - a.1) - cross a b p * (y.1 - a.1) := by
  unfold cross; ring

theorem crossId_T2 (a' a p y : Point) :
    cross a' p y * (p.1 - a.1) =
      cross a p y * (p.1 - a'.1) - cross a' a p * (p.1 - y.1) := by
  unfold cross; ring

theorem crossId_WR (a b c y : Point) :
    cross b c y * (b.1 - a.1) =
      cross a b c * (b.1 - y.1) + cross a b y * (c.1 - b.1) := by
  unfold cross; ring

theorem crossId_GL (a b c y : Point) :
    cross a b y * (c.1 - b.1) =
      cross a b c * (y.1 - b.1) + cross b c y * (b.1 - a.1) := by
  unfold cross; ring

theorem cross_swap23 (a b c : Point) : cross a b c = -cross a c b := by
  unfold cross; ring

theorem cross_swap13 (a b c : Point) : cross a b c = -cross c b a := by
  unfold cross; ring

theorem cross_swap12 (a b c : Point) : cross a b c = -cross b a c := by
  unfold cross; ring

theorem cross_cyc (a b c : Point) : cross a b c = cross b c a := by
  unfold cross; ring

theorem cross_vert_nonneg {a b y : Point} (hx : a.1 ≤ b.1) (hyx : y.1 = b.1)
    (hyy : b.2 ≤ y.2) : 0 ≤ cross a b y := by
  unfold cross
  rw [hyx]
  nlinarith [mul_nonneg (sub_nonneg.mpr hx) (sub_nonneg.mpr hyy)]

theorem cross_vert_pos {a b y : Point} (hx : a.1 < b.1) (hyx : y.1 = b.1)
    (hyy : b.2 < y.2) : 0 < cross a b y := by
  unfold cross
  rw [hyx]
  nlinarith [mul_pos (sub_pos.mpr hx) (sub_pos.mpr hyy)]

theorem cross_allx_eq {a b c : Point} (h1 : a.1 = b.1) (h2 : b.1 = c.1) :
    cross a b c = 0 := by
  unfold cross
  rw [show b.1 = a.1 from h1.symm, show c.1 = a.1 from (h1.trans h2).symm]
  ring

/-- T1 transfer: a point y weakly left of the popped edge (a, b), with
lex range a..b, stays weakly left of the replacing edge (a, p) when
the incoming p certifies the pop (cross a b p nonpositive). -/
theorem covT1 {a b p y : Point} (hab : lexLt a b) (hbp : lexLt b p)
    (hay : lexLe' a y) (hyb : lexLe' y b)
    (hpop : cross a b p ≤ 0) (hcov : 0 ≤ cross a b y) : 0 ≤ cross a p y := by
  by_cases hx : a.1 < b.1
  · have h2 : a.1 ≤ p.1 := le_trans (lexLt_x_le hab) (lexLt_x_le hbp)
    have h3 : a.1 ≤ y.1 := lexLe'_x_le hay
    have h1 : 0 ≤ cross a p y * (b.1 - a.1) := by
      rw [crossId_T1]
      nlinarith [mul_nonneg hcov (sub_nonneg.mpr h2),
        mul_nonneg (neg_nonneg.mpr hpop) (sub_nonneg.mpr h3)]
    nlinarith [h1, sub_pos.mpr hx]
  · have hax : a.1 = b.1 := le_antisymm (lexLt_x_le hab) (not_lt.mp hx)
    have hyx : y.1 = a.1 :=
      le_antisymm (hax ▸ lexLe'_x_le hyb) (lexLe'_x_le hay)
    have hyy : a.2 ≤ y.2 := lexLe'_y_le_of_x_eq hay hyx.symm
    have hpx : a.1 ≤ p.1 := le_trans (lexLt_x_le hab) (lexLt_x_le hbp)
    unfold cross
    rw [hyx]
    nlinarith [mul_nonneg (sub_nonneg.mpr hpx) (sub_nonneg.mpr hyy)]

/-- T2 transfer: a point y weakly left of the edge (a, p), with lex
range a..p, stays weakly left of (a2, p) when a is popped against its
predecessor a2 (cross a2 a p nonpositive). -/
theorem covT2 {a2 a p y : Point} (ha2a : lexLt a2 a) (hap : lexLt a p)
    (hay : lexLe' a y) (hyp : lexLe' y p)
    (hpop : cross a2 a p ≤ 0) (hcov : 0 ≤ cross a p y) : 0 ≤ cross a2 p y := by
  by_cases hx : a.1 < p.1
  · have h2 : a2.1 ≤ p.1 := le_trans (lexLt_x_le ha2a) (lexLt_x_le hap)
    have h3 : y.1 ≤ p.1 := lexLe'_x_le hyp
    have h1 : 0 ≤ cross a2 p y * (p.1 - a.1) := by
      rw [crossId_T2]
      nlinarith [mul_nonneg hcov (sub_nonneg.mpr h2),
        mul_nonneg (neg_nonneg.mpr hpop) (sub_nonneg.mpr h3)]
    nlinarith [h1, sub_pos.mpr hx]
  · have hax : a.1 = p.1 := le_antisymm (lexLt_x_le hap) (not_lt.mp hx)
    by_cases hx2 : a2.1 < a.1
    · exfalso
      have hy2 : a.2 < p.2 := lexLt_y_lt_of_x_eq hap hax
      have : 0 < cross a2 a p := by
        unfold cross
        rw [show p.1 = a.1 from hax.symm]
        nlinarith [mul_pos (sub_pos.mpr hx2) (sub_pos.mpr hy2)]
      linarith
    · have ha2x : a2.1 = a.1 := le_antisymm (lexLt_x_le ha2a) (not_lt.mp hx2)
      have hy1 : y.1 = a.1 :=
        le_antisymm (hax ▸ lexLe'_x_le hyp) (lexLe'_x_le hay)
      unfold cross
      have e1 : p.1 = a2.1 := hax.symm.trans ha2x.symm ▸ rfl
      have e2 : y.1 = a2.1 := hy1.trans ha2x.symm
      rw [show p.1 = a2.1 from by rw [← hax, ha2x], e2]
      ring_nf
      exact le_refl 0

/-- Rightward propagation along a left-turning chain: y weakly left
of edge (a, b) and lex-left of b stays weakly left of the next edge
(b, c). -/
theorem covWR {a b c y : Point} (hab_x : a.1 < b.1) (hbc : lexLt b c)
    (hyb : lexLe' y b) (hturn : 0 < cross a b c) (hcov : 0 ≤ cross a b y) :
    0 ≤ cross b c y := by
  have h2 : y.1 ≤ b.1 := lexLe'_x_le hyb
  have h3 : b.1 ≤ c.1 := lexLt_x_le hbc
  have h1 : 0 ≤ cross b c y * (b.1 - a.1) := by
    rw [crossId_WR]
    nlinarith [mul_nonneg (le_of_lt hturn) (sub_nonneg.mpr h2),
      mul_nonneg hcov (sub_nonneg.mpr h3)]
  nlinarith [h1, sub_pos.mpr hab_x]

/-- Leftward propagation along a left-turning chain: y weakly left of
edge (b, c) and lex-right of b stays weakly left of the previous edge
(a, b). -/
theorem covGL {a b c y : Point} (hbc_x : b.1 < c.1) (hab : lexLt a b)
    (hby : lexLe' b y) (hturn : 0 < cross a b c) (hcov : 0 ≤ cross b c y) :
    0 ≤ cross a b y := by
  have h2 : b.1 ≤ y.1 := lexLe'_x_le hby
  have h3 : a.1 ≤ b.1 := lexLt_x_le hab
  have h1 : 0 ≤ cross a b y * (c.1 - b.1) := by
    rw [crossId_GL]
    nlinarith [mul_nonneg (le_of_lt hturn) (sub_nonneg.mpr h2),
      mul_nonneg hcov (sub_nonneg.mpr h3)]
  nlinarith [h1, sub_pos.mpr hbc_x]


/-! C2 development: adjacency along a list, turns, and index glue. -/

/-- Adj2 l u v: u and v occur consecutively (u immediately before v)
in l. -/
def Adj2 : List Point → Point → Point → Prop
  | x :: y :: rest, u, v => (u = x ∧ v = y) ∨ Adj2 (y :: rest) u v
  | _, _, _ => False

/-- Every consecutive triple of the list is a strict left turn. -/
def LTurns : List Point → Prop
  | a :: b :: c :: rest => 0 < cross a b c ∧ LTurns (b :: c :: rest)
  | _ => True

/-- Every consecutive pair that has a successor pair is strictly
increasing in x. -/
def XSB : List Point → Prop
  | a :: b :: c :: rest => a.1 < b.1 ∧ XSB (b :: c :: rest)
  | _ => True

theorem Adj2_mem : ∀ {l : List Point} {u v : Point}, Adj2 l u v → u ∈ l ∧ v ∈ l := by
  intro l
  induction l with
  | nil => intro u v h; cases h
  | cons x l ih =>
    intro u v h
    cases l with
    | nil => cases h
    | cons y rest =>
      rcases h with ⟨rfl, rfl⟩ | h
      · exact ⟨List.mem_cons_self _ _, List.mem_cons_of_mem _ (List.mem_cons_self _ _)⟩
      · obtain ⟨h1, h2⟩ := ih h
        exact ⟨List.mem_cons_of_mem _ h1, List.mem_cons_of_mem _ h2⟩

theorem Adj2_cons {l : List Point} {x u v : Point} (h : Adj2 l u v) :
    Adj2 (x :: l) u v := by
  cases l with
  | nil => cases h
  | cons y rest => exact Or.inr h

theorem Adj2_append : ∀ (l1 l2 : List Point) (u v : Point),
    Adj2 (l1 ++ l2) u v ↔
      Adj2 l1 u v ∨ Adj2 l2 u v ∨ (l1.getLast? = some u ∧ l2.head? = some v) := by
  intro l1
  induction l1 with
  | nil =>
    intro l2 u v
    simp [Adj2]
  | cons x l1' ih =>
    intro l2 u v
    cases l1' with
    | nil =>
      cases l2 with
      | nil => simp [Adj2]
      | cons z l2' =>
        simp only [List.singleton_append, Adj2, List.getLast?_singleton,
          List.head?_cons, Option.some.injEq]
        constructor
        · rintro (⟨rfl, rfl⟩ | h)
          · exact Or.inr (Or.inr ⟨rfl, rfl⟩)
          · exact Or.inr (Or.inl h)
        · rintro (h | h | ⟨rfl, rfl⟩)
          · exact absurd h (by simp [Adj2])
          · exact Or.inr h
          · exact Or.inl ⟨rfl, rfl⟩
    | cons w l1'' =>
      have hne : (w :: l1'') ++ l2 = w :: (l1'' ++ l2) := rfl
      constructor
      · intro h
        rcases h with ⟨rfl, rfl⟩ | h
        · exact Or.inl (Or.inl ⟨rfl, rfl⟩)
        · rcases (ih l2 u v).mp h with h1 | h2 | h3
          · exact Or.inl (Or.inr h1)
          · exact Or.inr (Or.inl h2)
          · refine Or.inr (Or.inr ⟨?_, h3.2⟩)
            rw [List.getLast?_cons_cons]
            exact h3.1
      · intro h
        rcases h with (⟨rfl, rfl⟩ | h1) | h2 | h3
        · exact Or.inl ⟨rfl, rfl⟩
        · exact Or.inr ((ih l2 u v).mpr (Or.inl h1))
        · exact Or.inr ((ih l2 u v).mpr (Or.inr (Or.inl h2)))
        · refine Or.inr ((ih l2 u v).mpr (Or.inr (Or.inr ⟨?_, h3.2⟩)))
          rw [List.getLast?_cons_cons] at h3
          exact h3.1

theorem Adj2_reverse : ∀ (l : List Point) (u v : Point),
    Adj2 l.reverse u v ↔ Adj2 l v u := by
  intro l
  induction l with
  | nil => intro u v; simp [Adj2]
  | cons x l ih =>
    intro u v
    rw [List.reverse_cons, Adj2_append]
    cases l with
    | nil => simp [Adj2]
    | cons y rest =>
      simp only [Adj2, ih, List.getLast?_reverse, List.head?_cons, Option.some.injEq]
      constructor
      · rintro (h | h | ⟨rfl, rfl⟩)
        · exact Or.inr h
        · cases h
        · exact Or.inl ⟨rfl, rfl⟩
      · rintro (⟨rfl, rfl⟩ | h)
        · exact Or.inr (Or.inr ⟨rfl, rfl⟩)
        · exact Or.inl h

theorem Adj2_pairwise {l : List Point} (hp : List.Pairwise lexLt l)
    {u v : Point} (h : Adj2 l u v) : lexLt u v := by
  induction l with
  | nil => cases h
  | cons x l ih =>
    cases l with
    | nil => cases h
    | cons y rest =>
      rcases h with ⟨rfl, rfl⟩ | h
      · exact (List.pairwise_cons.mp hp).1 v (List.mem_cons_self _ _)
      · exact ih (List.pairwise_cons.mp hp).2 h

theorem LTurns_tail : ∀ {l : List Point} {x : Point}, LTurns (x :: l) → LTurns l := by
  intro l x h
  match l with
  | [] => trivial
  | [a] => trivial
  | a :: b :: rest => exact h.2

theorem XSB_tail : ∀ {l : List Point} {x : Point}, XSB (x :: l) → XSB l := by
  intro l x h
  match l with
  | [] => trivial
  | [a] => trivial
  | a :: b :: rest => exact h.2

theorem Adj2_getD : ∀ {l : List Point} {u v : Point}, Adj2 l u v →
    ∃ i, i + 1 < l.length ∧ l.getD i (0, 0) = u ∧ l.getD (i + 1) (0, 0) = v := by
  intro l
  induction l with
  | nil => intro u v h; cases h
  | cons x l ih =>
    intro u v h
    cases l with
    | nil => cases h
    | cons y rest =>
      rcases h with ⟨rfl, rfl⟩ | h
      · exact ⟨0, by simp, rfl, rfl⟩
      · obtain ⟨i, hi, h1, h2⟩ := ih h
        exact ⟨i + 1, by simpa using Nat.succ_lt_succ hi, h1, h2⟩

theorem getD_Adj2 : ∀ {l : List Point} {i : Nat}, i + 1 < l.length →
    Adj2 l (l.getD i (0, 0)) (l.getD (i + 1) (0, 0)) := by
  intro l
  induction l with
  | nil => intro i h; simp at h
  | cons x l ih =>
    intro i h
    cases l with
    | nil => simp at h
    | cons y rest =>
      cases i with
      | zero => exact Or.inl ⟨rfl, rfl⟩
      | succ j =>
        refine Or.inr ?_
        exact ih (by simpa using Nat.lt_of_succ_lt_succ h)


/-! C2 development: scan invariants of the monotone-chain stack. -/

/-- Stack order: strictly lex-decreasing downward (head is the most
recent, lex-greatest point). -/
def StkOrd (st : List Point) : Prop := List.Pairwise (fun a b => lexLt b a) st

/-- Stack turns: reading three entries downward x, y, z, the chain
triple (z, y, x) is a strict left turn. -/
def StkTurn : List Point → Prop
  | x :: y :: z :: rest => 0 < cross z y x ∧ StkTurn (y :: z :: rest)
  | _ => True

/-- Every adjacent stack pair (u directly below v) is strictly
increasing in x upward. -/
def StkXAll : List Point → Prop
  | v :: u :: rest => u.1 < v.1 ∧ StkXAll (u :: rest)
  | _ => True

/-- All stack pairs except possibly the topmost are x-strict. -/
def StkX : List Point → Prop
  | _ :: rest => StkXAll rest
  | [] => True

/-- Coverage of a processed point y by the stack: y is a stack entry,
or y is weakly left of some chain edge (u, v) of the stack (v directly
above u), with u lex-at-most y lex-at-most v. -/
def Cov (st : List Point) (y : Point) : Prop :=
  y ∈ st ∨ ∃ u v, Adj2 st v u ∧ 0 ≤ cross u v y ∧ lexLe' u y ∧ lexLe' y v

/-- Pending coverage: y is weakly left of the edge from the stack top
to the incoming point p, with the matching lex range. -/
def PendCov (st : List Point) (p y : Point) : Prop :=
  ∃ u rest, st = u :: rest ∧ 0 ≤ cross u p y ∧ lexLe' u y ∧ lexLe' y p

theorem StkOrd_nodup {st : List Point} (h : StkOrd st) : st.Nodup :=
  h.imp fun hab => (lexLt_ne hab).symm

theorem StkTurn_tail : ∀ {st : List Point} {x : Point}, StkTurn (x :: st) → StkTurn st := by
  intro st x h
  match st with
  | [] => trivial
  | [a] => trivial
  | a :: b :: rest => exact h.2

theorem StkXAll_tail : ∀ {st : List Point} {x : Point}, StkXAll (x :: st) → StkXAll st := by
  intro st x h
  match st with
  | [] => trivial
  | [a] => trivial
  | a :: b :: rest => exact h.2

theorem chainPush_shape : ∀ (st : List Point) (p : Point),
    ∃ t, chainPush st p = p :: t ∧ t.IsSuffix st ∧ (st ≠ [] → t ≠ []) := by
  intro st
  induction st with
  | nil => intro p; exact ⟨[], rfl, List.nil_suffix, fun h => absurd rfl h⟩
  | cons b st' ih =>
    intro p
    cases st' with
    | nil =>
      exact ⟨[b], rfl, List.suffix_refl _, fun _ => by simp⟩
    | cons a rest =>
      rw [chainPush]
      by_cases hc : cross a b p ≤ 0
      · rw [if_pos hc]
        obtain ⟨t, h1, h2, h3⟩ := ih p
        exact ⟨t, h1, h2.trans (List.suffix_cons b _), fun _ => h3 (by simp)⟩
      · rw [if_neg hc]
        exact ⟨b :: a :: rest, rfl, List.suffix_refl _, fun _ => by simp⟩

theorem chainPush_ord {st : List Point} {p : Point} (hord : StkOrd st)
    (hp : ∀ x ∈ st, lexLt x p) : StkOrd (chainPush st p) := by
  obtain ⟨t, heq, hsuf, -⟩ := chainPush_shape st p
  rw [heq]
  refine List.pairwise_cons.mpr ⟨?_, hord.sublist hsuf.sublist⟩
  intro x hx
  exact hp x (hsuf.sublist.mem hx)

theorem vert_top_no_keep {a b p : Point} (hx : a.1 = b.1) (hy : a.2 < b.2)
    (hbp : b.1 ≤ p.1) : cross a b p ≤ 0 := by
  unfold cross
  rw [show b.1 = a.1 from hx.symm]
  nlinarith [mul_nonneg (le_of_lt (sub_pos.mpr hy)) (sub_nonneg.mpr (hx ▸ hbp))]

theorem chainPush_turn : ∀ (st : List Point) (p : Point),
    StkTurn st → StkTurn (chainPush st p) := by
  intro st
  induction st with
  | nil => intro p _; trivial
  | cons b st' ih =>
    intro p hturn
    cases st' with
    | nil => trivial
    | cons a rest =>
      rw [chainPush]
      by_cases hc : cross a b p ≤ 0
      · rw [if_pos hc]
        exact ih p (StkTurn_tail hturn)
      · rw [if_neg hc]
        exact ⟨not_le.mp hc, hturn⟩

theorem chainPush_xstrict : ∀ (st : List Point) (p : Point),
    StkOrd st → StkX st → (∀ x ∈ st, lexLt x p) → StkX (chainPush st p) := by
  intro st
  induction st with
  | nil => intro p _ _ _; trivial
  | cons b st' ih =>
    intro p hord hx hp
    cases st' with
    | nil => trivial
    | cons a rest =>
      rw [chainPush]
      by_cases hc : cross a b p ≤ 0
      · rw [if_pos hc]
        refine ih p (List.pairwise_cons.mp hord).2 ?_ ?_
        · exact StkXAll_tail hx
        · intro x hmem
          exact hp x (List.mem_cons_of_mem b hmem)
      · rw [if_neg hc]
        show StkXAll (b :: a :: rest)
        have hab : lexLt a b := (List.pairwise_cons.mp hord).1 a (List.mem_cons_self _ _)
        have habx : a.1 < b.1 := by
          rcases lt_or_eq_of_le (lexLt_x_le hab) with h | h
          · exact h
          · exfalso
            have hbp : b.1 ≤ p.1 := lexLt_x_le (hp b (List.mem_cons_self _ _))
            exact hc (vert_top_no_keep h (lexLt_y_lt_of_x_eq hab h) hbp)
        exact ⟨habx, hx⟩


theorem Cov_cons {st : List Point} {x y : Point} (h : Cov st y) : Cov (x :: st) y := by
  rcases h with h | ⟨u, v, hadj, hc, h1, h2⟩
  · exact Or.inl (List.mem_cons_of_mem x h)
  · exact Or.inr ⟨u, v, Adj2_cons hadj, hc, h1, h2⟩

theorem chainPush_cov (p : Point) : ∀ (st : List Point) (y : Point),
    StkOrd st → (∀ x ∈ st, lexLt x p) →
    (Cov st y ∨ PendCov st p y) → Cov (chainPush st p) y := by
  intro st
  induction st with
  | nil =>
    intro y _ _ h
    rcases h with h | h
    · rcases h with h | ⟨u, v, hadj, -⟩
      · cases h
      · cases hadj
    · obtain ⟨u, rest, heq, -⟩ := h
      cases heq
  | cons b st' ih =>
    intro y hord hp h
    cases st' with
    | nil =>
      show Cov [p, b] y
      rcases h with h | h
      · rcases h with h | ⟨u, v, hadj, -⟩
        · rcases List.mem_singleton.mp h with rfl
          exact Or.inl (List.mem_cons_of_mem p (List.mem_cons_self _ _))
        · cases hadj
      · obtain ⟨u, rest, heq, hc, h1, h2⟩ := h
        have he1 : u = b := by injection heq with e1 e2; exact e1.symm
        subst he1
        exact Or.inr ⟨u, p, Or.inl ⟨rfl, rfl⟩, hc, h1, h2⟩
    | cons a rest =>
      have hab : lexLt a b := (List.pairwise_cons.mp hord).1 a (List.mem_cons_self _ _)
      have hbp : lexLt b p := hp b (List.mem_cons_self _ _)
      have hord' : StkOrd (a :: rest) := (List.pairwise_cons.mp hord).2
      have hp' : ∀ x ∈ a :: rest, lexLt x p :=
        fun x hx => hp x (List.mem_cons_of_mem b hx)
      rw [chainPush]
      by_cases hc : cross a b p ≤ 0
      · rw [if_pos hc]
        refine ih y hord' hp' ?_
        rcases h with h | h
        · rcases h with h | ⟨u, v, hadj, hcuv, h1, h2⟩
          · rcases List.mem_cons.mp h with rfl | h
            · -- y = b, popped: pending coverage via the edge (a, p)
              right
              refine ⟨a, rest, rfl, ?_, Or.inl hab, Or.inl hbp⟩
              have := cross_swap23 a y p
              linarith [hc, this, cross_swap23 a p y]
            · exact Or.inl (Or.inl h)
          · rcases hadj with ⟨rfl, rfl⟩ | hadj
            · -- covering pair was the top pair (u, v) = (a, b)
              right
              exact ⟨u, rest, rfl, covT1 hab hbp h1 h2 hc hcuv, h1,
                Or.inl (lexLe'_lt_trans h2 hbp)⟩
            · exact Or.inl (Or.inr ⟨u, v, hadj, hcuv, h1, h2⟩)
        · obtain ⟨u, rest2, heq, hcup, h1, h2⟩ := h
          have hub : u = b := by injection heq with e1 e2; exact e1.symm
          subst hub
          right
          exact ⟨a, rest, rfl, covT2 hab hbp h1 h2 hc hcup,
            Or.inl (lexLt_le'_trans hab h1), h2⟩
      · rw [if_neg hc]
        rcases h with h | h
        · exact Cov_cons h
        · obtain ⟨u, rest2, heq, hcup, h1, h2⟩ := h
          have hub : u = b := by injection heq with e1 e2; exact e1.symm
          subst hub
          exact Or.inr ⟨u, p, Or.inl ⟨rfl, rfl⟩, hcup, h1, h2⟩

/-- The full invariant of the monotone-chain scan: after processing
done, the stack is strictly lex-decreasing, left-turning, x-strict
below the top pair, drawn from done, covers every processed point,
and its bottom and top entries are the first and last processed
points. -/
structure ScanInv (done st : List Point) : Prop where
  ord : StkOrd st
  turn : StkTurn st
  xstrict : StkX st
  sub : ∀ x ∈ st, x ∈ done
  cov : ∀ y ∈ done, Cov st y
  bot : st.getLast? = done.head?
  top : st.head? = done.getLast?

theorem chainPush_inv {done st : List Point} {p : Point} (inv : ScanInv done st)
    (hgt : ∀ x ∈ done, lexLt x p) : ScanInv (done ++ [p]) (chainPush st p) := by
  have hp : ∀ x ∈ st, lexLt x p := fun x hx => hgt x (inv.sub x hx)
  obtain ⟨t, heq, hsuf, hne⟩ := chainPush_shape st p
  refine ⟨chainPush_ord inv.ord hp, chainPush_turn st p inv.turn,
    chainPush_xstrict st p inv.ord inv.xstrict hp, ?_, ?_, ?_, ?_⟩
  · intro x hx
    rcases chainPush_subset st p x hx with rfl | hx2
    · simp
    · exact List.mem_append.mpr (Or.inl (inv.sub x hx2))
  · intro y hy
    rcases List.mem_append.mp hy with hy | hy
    · exact chainPush_cov p st y inv.ord hp (Or.inl (inv.cov y hy))
    · rcases List.mem_singleton.mp hy with rfl
      rw [heq]
      exact Or.inl (List.mem_cons_self _ _)
  · rw [heq]
    cases hst : st with
    | nil =>
      have hd : done = [] := by
        have := inv.bot
        rw [hst] at this
        cases hdone : done with
        | nil => rfl
        | cons d ds => rw [hdone] at this; simp at this
      subst hd
      have ht : t = [] := by
        have := hsuf
        rw [hst] at this
        exact List.suffix_nil.mp this
      subst ht
      rfl
    | cons s ss =>
      have htne : t ≠ [] := hne (by simp [hst])
      have h1 : (p :: t).getLast? = t.getLast? := by
        cases t with
        | nil => exact absurd rfl htne
        | cons t0 ts => simp [List.getLast?_cons_cons]
      have h2 : t.getLast? = st.getLast? := by
        obtain ⟨pre, hpre⟩ := hsuf
        rw [← hpre, List.getLast?_append_of_ne_nil pre htne]
      have hdne : done ≠ [] := by
        intro hd
        have := inv.bot
        rw [hd, hst] at this
        simp at this
      rw [h1, h2, inv.bot]
      cases hdone : done with
      | nil => exact absurd hdone hdne
      | cons d ds => simp
  · rw [heq]
    simp [List.getLast?_concat]

theorem scan_fold : ∀ (l done st : List Point), ScanInv done st →
    List.Pairwise lexLt l → (∀ x ∈ done, ∀ z ∈ l, lexLt x z) →
    ScanInv (done ++ l) (l.foldl chainPush st) := by
  intro l
  induction l with
  | nil => intro done st inv _ _; simpa using inv
  | cons p l' ih =>
    intro done st inv hpw hsep
    have h1 : ScanInv (done ++ [p]) (chainPush st p) :=
      chainPush_inv inv fun x hx => hsep x hx p (List.mem_cons_self _ _)
    have h2 := ih (done ++ [p]) (chainPush st p) h1 (List.pairwise_cons.mp hpw).2 ?_
    · rw [List.append_assoc] at h2
      simpa using h2
    · intro x hx z hz
      rcases List.mem_append.mp hx with hx | hx
      · exact hsep x hx z (List.mem_cons_of_mem p hz)
      · rcases List.mem_singleton.mp hx with rfl
        exact (List.pairwise_cons.mp hpw).1 z hz

/-- The scan invariant holds of the finished stack of any strictly
sorted list. -/
theorem stack_inv (l : List Point) (hpw : List.Pairwise lexLt l) :
    ScanInv l (l.foldl chainPush []) := by
  have h := scan_fold l [] [] ⟨List.Pairwise.nil, trivial, trivial,
    (by intro x hx; cases hx), (by intro y hy; cases hy), rfl, rfl⟩ hpw
    (by intro x hx; cases hx)
  simpa using h


/-! C2 development: from one covering edge to all edges of a chain. -/

/-- All chain pairs of the stack weakly see y on their left. -/
def APL (st : List Point) (y : Point) : Prop :=
  ∀ u v, Adj2 st v u → 0 ≤ cross u v y

theorem lex_trichotomy (a b : Point) : lexLt a b ∨ a = b ∨ lexLt b a := by
  unfold lexLt
  rcases lt_trichotomy a.1 b.1 with h | h | h
  · exact Or.inl (Or.inl h)
  · rcases lt_trichotomy a.2 b.2 with h2 | h2 | h2
    · exact Or.inl (Or.inr ⟨h, h2⟩)
    · exact Or.inr (Or.inl (Prod.ext h h2))
    · exact Or.inr (Or.inr (Or.inr ⟨h.symm, h2⟩))
  · exact Or.inr (Or.inr (Or.inl h))

theorem stk_head_max {st : List Point} (hord : StkOrd st) {v hh : Point}
    (hmem : v ∈ st) (hh0 : st.head? = some hh) : lexLe' v hh := by
  cases st with
  | nil => cases hmem
  | cons x rest =>
    injection hh0 with e
    subst e
    rcases List.mem_cons.mp hmem with rfl | hmem
    · exact Or.inr rfl
    · exact Or.inl ((List.pairwise_cons.mp hord).1 v hmem)

theorem stk_triple : ∀ {st : List Point}, StkOrd st → StkTurn st →
    ∀ {u v w : Point}, Adj2 st v u → Adj2 st w v → 0 < cross u v w := by
  intro st
  induction st with
  | nil => intro _ _ u v w h1 _; cases h1
  | cons x st' ih =>
    intro hord ht u v w h1 h2
    cases st' with
    | nil => cases h1
    | cons y st'' =>
      have hnd := StkOrd_nodup hord
      rcases h2 with ⟨hwx, hvy⟩ | h2
      · rcases h1 with ⟨hvx, -⟩ | h1
        · exfalso
          have hxy : x ∉ y :: st'' := (List.nodup_cons.mp hnd).1
          exact hxy (by rw [← hvx, hvy]; exact List.mem_cons_self _ _)
        · cases st'' with
          | nil => rw [hvy] at h1; cases h1
          | cons z st3 =>
            rw [hvy] at h1
            rcases h1 with ⟨-, huz⟩ | h1
            · rw [hwx, hvy, huz]
              exact ht.1
            · exfalso
              have hy_notin : y ∉ z :: st3 :=
                (List.nodup_cons.mp (List.nodup_cons.mp hnd).2).1
              exact hy_notin (Adj2_mem h1).1
      · rcases h1 with ⟨hvx, -⟩ | h1
        · exfalso
          have hx_notin : x ∉ y :: st'' := (List.nodup_cons.mp hnd).1
          exact hx_notin (hvx ▸ (Adj2_mem h2).2)
        · exact ih (List.pairwise_cons.mp hord).2 (StkTurn_tail ht) h1 h2

theorem stk_xpair : ∀ {st : List Point}, StkOrd st → StkX st →
    ∀ {u v w : Point}, Adj2 st v u → Adj2 st w v → u.1 < v.1 := by
  intro st
  induction st with
  | nil => intro _ _ u v w h1 _; cases h1
  | cons x st' ih =>
    intro hord hx u v w h1 h2
    cases st' with
    | nil => cases h1
    | cons y st'' =>
      have hnd := StkOrd_nodup hord
      rcases h2 with ⟨hwx, hvy⟩ | h2
      · rcases h1 with ⟨hvx, -⟩ | h1
        · exfalso
          have hxy : x ∉ y :: st'' := (List.nodup_cons.mp hnd).1
          exact hxy (by rw [← hvx, hvy]; exact List.mem_cons_self _ _)
        · cases st'' with
          | nil => rw [hvy] at h1; cases h1
          | cons z st3 =>
            rw [hvy] at h1
            rcases h1 with ⟨-, huz⟩ | h1
            · rw [huz, hvy]
              exact (show StkXAll (y :: z :: st3) from hx).1
            · exfalso
              have hy_notin : y ∉ z :: st3 :=
                (List.nodup_cons.mp (List.nodup_cons.mp hnd).2).1
              exact hy_notin (Adj2_mem h1).1
      · rcases h1 with ⟨hvx, -⟩ | h1
        · exfalso
          have hx_notin : x ∉ y :: st'' := (List.nodup_cons.mp hnd).1
          exact hx_notin (hvx ▸ (Adj2_mem h2).2)
        · exact ih (List.pairwise_cons.mp hord).2 (StkXAll_tail hx) h1 h2

theorem exists_above : ∀ {st : List Point} {v : Point}, v ∈ st.tail →
    ∃ w, Adj2 st w v := by
  intro st
  induction st with
  | nil => intro v h; cases h
  | cons x st' ih =>
    intro v h
    cases st' with
    | nil => cases h
    | cons y st'' =>
      rcases List.mem_cons.mp h with rfl | h
      · exact ⟨x, Or.inl ⟨rfl, rfl⟩⟩
      · obtain ⟨w, hw⟩ := ih h
        exact ⟨w, Adj2_cons hw⟩

theorem exists_below : ∀ {st : List Point} {u : Point}, u ∈ st →
    st.getLast? ≠ some u → ∃ t, Adj2 st u t := by
  intro st
  induction st with
  | nil => intro u h; cases h
  | cons x st' ih =>
    intro u hmem hlast
    cases st' with
    | nil =>
      rcases List.mem_singleton.mp hmem with rfl
      exact absurd rfl hlast
    | cons y st'' =>
      rcases List.mem_cons.mp hmem with rfl | hmem
      · exact ⟨y, Or.inl ⟨rfl, rfl⟩⟩
      · have hl : (y :: st'').getLast? ≠ some u := by
          rwa [List.getLast?_cons_cons] at hlast
        obtain ⟨t, ht⟩ := ih hmem hl
        exact ⟨t, Adj2_cons ht⟩

theorem walk_down (ycov : Point) : ∀ (rest : List Point) (v u : Point),
    StkOrd (v :: u :: rest) → StkTurn (v :: u :: rest) → StkX (v :: u :: rest) →
    0 ≤ cross u v ycov → lexLe' u ycov → (u.1 < v.1 ∨ ycov.1 ≤ v.1) →
    APL (v :: u :: rest) ycov := by
  intro rest
  induction rest with
  | nil =>
    intro v u _ _ _ hcov _ _ u' v' hadj
    rcases hadj with ⟨hv, hu⟩ | hadj
    · rw [hu, hv]; exact hcov
    · cases hadj
  | cons z rest' ih =>
    intro v u hord ht hx hcov hle hdisj
    have hzu : lexLt z u :=
      (List.pairwise_cons.mp (List.pairwise_cons.mp hord).2).1 z (List.mem_cons_self _ _)
    have huv : lexLt u v := (List.pairwise_cons.mp hord).1 u (List.mem_cons_self _ _)
    have hcov2 : 0 ≤ cross z u ycov := by
      by_cases hstrict : u.1 < v.1
      · exact covGL hstrict hzu hle ht.1 hcov
      · have hux : u.1 = v.1 := le_antisymm (lexLt_x_le huv) (not_lt.mp hstrict)
        have hbound : ycov.1 ≤ v.1 := by
          rcases hdisj with h | h
          · exact absurd h hstrict
          · exact h
        have hyx : ycov.1 = u.1 := le_antisymm (hux ▸ hbound) (lexLe'_x_le hle)
        have hyy : u.2 ≤ ycov.2 := lexLe'_y_le_of_x_eq hle hyx.symm
        exact cross_vert_nonneg (lexLt_x_le hzu) hyx hyy
    have hle2 : lexLe' z ycov := Or.inl (lexLt_le'_trans hzu hle)
    have hih := ih u z (List.pairwise_cons.mp hord).2 (StkTurn_tail ht)
      (StkXAll_tail hx) hcov2 hle2
      (Or.inl (show StkXAll (u :: z :: rest') from hx).1)
    intro u' v' hadj
    rcases hadj with ⟨hv, hu⟩ | hadj
    · rw [hu, hv]; exact hcov
    · exact hih u' v' hadj

theorem chain_all_pairs : ∀ (st : List Point), StkOrd st → StkTurn st → StkX st →
    ∀ (ycov u v : Point), Adj2 st v u → 0 ≤ cross u v ycov →
    lexLe' u ycov → lexLe' ycov v → APL st ycov := by
  intro st
  induction st with
  | nil => intro _ _ _ ycov u v h1; cases h1
  | cons x st' ih =>
    intro hord ht hx ycov u v h1 hcov hl1 hl2
    cases st' with
    | nil => cases h1
    | cons y st'' =>
      rcases h1 with ⟨hvx, huy⟩ | h1
      · have hw := walk_down ycov st'' x y hord ht hx
          (by rw [← hvx, ← huy]; exact hcov)
          (by rw [← huy]; exact hl1)
          (Or.inr (hvx ▸ lexLe'_x_le hl2))
        exact hw
      · have hord' := (List.pairwise_cons.mp hord).2
        have hAPL2 : APL (y :: st'') ycov :=
          ih hord' (StkTurn_tail ht) (StkXAll_tail hx) ycov u v h1 hcov hl1 hl2
        intro u' v' hadj
        rcases hadj with ⟨hvx2, huy2⟩ | hadj
        · cases st'' with
          | nil => cases h1
          | cons z st3 =>
            have hty : 0 ≤ cross z y ycov := hAPL2 z y (Or.inl ⟨rfl, rfl⟩)
            have hzy : z.1 < y.1 := (show StkXAll (y :: z :: st3) from hx).1
            have hvmem : v ∈ y :: z :: st3 := (Adj2_mem h1).1
            have hys : lexLe' ycov y :=
              lexLe'_trans hl2 (stk_head_max hord' hvmem rfl)
            have := covWR hzy
              ((List.pairwise_cons.mp hord).1 y (List.mem_cons_self _ _)) hys ht.1 hty
            rw [huy2, hvx2]
            exact this
        · exact hAPL2 u' v' hadj


theorem Adj2_rel {R : Point → Point → Prop} : ∀ {l : List Point},
    List.Pairwise R l → ∀ {u v}, Adj2 l u v → R u v := by
  intro l
  induction l with
  | nil => intro _ u v h; cases h
  | cons x l ih =>
    intro hp u v h
    cases l with
    | nil => cases h
    | cons y rest =>
      rcases h with ⟨h1, h2⟩ | h
      · rw [h1, h2]
        exact (List.pairwise_cons.mp hp).1 y (List.mem_cons_self _ _)
      · exact ih (List.pairwise_cons.mp hp).2 h

theorem stk_pair_lt {st : List Point} (hord : StkOrd st) {u v : Point}
    (h : Adj2 st v u) : lexLt u v :=
  Adj2_rel hord h

/-- A point that all chain edges of the stack weakly see on their
left, is strictly lex-between the stack's bottom and top, and lies on
the line of one edge without being one of its endpoints, lies strictly
inside that edge's segment. -/
theorem strict_or_seg {st : List Point} (hord : StkOrd st) (ht : StkTurn st)
    (hx : StkX st) {w : Point} (hAPL : APL st w)
    {u v : Point} (hadj : Adj2 st v u) (hne_u : w ≠ u) (hne_v : w ≠ v)
    (hbot : ∀ bb, st.getLast? = some bb → lexLe' bb w)
    (htop : ∀ hh, st.head? = some hh → lexLe' w hh)
    (hzero : cross u v w = 0) :
    ∃ s : ℚ, 0 < s ∧ s < 1 ∧ w.1 = u.1 + s * (v.1 - u.1) ∧
      w.2 = u.2 + s * (v.2 - u.2) := by
  have huv : lexLt u v := stk_pair_lt hord hadj
  rcases lex_trichotomy w u with hwu | heq | huw
  · -- w strictly lex-left of u: contradiction via the pair below u
    exfalso
    have hu_mem : u ∈ st := (Adj2_mem hadj).2
    have hlast : st.getLast? ≠ some u := by
      intro hl
      exact lexLt_irrefl u (lexLe'_lt_trans (hbot u hl) hwu)
    obtain ⟨t, ht'⟩ := exists_below hu_mem hlast
    have hturn : 0 < cross t u v := stk_triple hord ht ht' hadj
    have hAPLtu : 0 ≤ cross t u w := hAPL t u ht'
    have hvu_x : u.1 ≤ v.1 := lexLt_x_le huv
    by_cases hwu_x : w.1 < u.1
    · have hz3 : cross u v w * (u.1 - t.1) = 0 := by rw [hzero]; ring
      nlinarith [crossId_GL t u v w, hz3,
        mul_pos hturn (sub_pos.mpr hwu_x),
        mul_nonneg hAPLtu (sub_nonneg.mpr hvu_x)]
    · have hwux : w.1 = u.1 := le_antisymm (lexLt_x_le hwu) (not_lt.mp hwu_x)
      have hwy : w.2 < u.2 := lexLt_y_lt_of_x_eq hwu hwux
      have htux : t.1 < u.1 := stk_xpair hord hx ht' hadj
      have : cross t u w < 0 := by
        unfold cross
        rw [hwux]
        nlinarith [mul_pos (sub_pos.mpr htux) (sub_pos.mpr hwy)]
      linarith
  · exact absurd heq hne_u
  rcases lex_trichotomy v w with hvw | heq | hwv
  · -- w strictly lex-right of v: contradiction via the pair above v
    exfalso
    have hv_mem : v ∈ st := (Adj2_mem hadj).1
    cases hst : st with
    | nil => rw [hst] at hadj; cases hadj
    | cons hh tl =>
      have hwhh : lexLe' w hh := htop hh (by rw [hst]; rfl)
      have hvhh : lexLt v hh := lexLt_le'_trans hvw hwhh
      have hv_tail : v ∈ (hh :: tl).tail := by
        rcases List.mem_cons.mp (hst ▸ hv_mem) with rfl | hm
        · exact absurd rfl (lexLt_ne hvhh)
        · exact hm
      obtain ⟨w2, hw2⟩ := exists_above hv_tail
      rw [← hst] at hw2
      have hturn : 0 < cross u v w2 := stk_triple hord ht hadj hw2
      have hAPLvw : 0 ≤ cross v w2 w := hAPL v w2 hw2
      have hux : u.1 ≤ v.1 := lexLt_x_le huv
      by_cases hvw_x : v.1 < w.1
      · have hz3 : cross u v w * (w2.1 - v.1) = 0 := by rw [hzero]; ring
        nlinarith [crossId_WR u v w2 w, hz3,
          mul_pos hturn (sub_pos.mpr hvw_x),
          mul_nonneg hAPLvw (sub_nonneg.mpr hux)]
      · have hwvx : w.1 = v.1 := le_antisymm (not_lt.mp hvw_x) (lexLt_x_le hvw)
        have hwy : v.2 < w.2 := lexLt_y_lt_of_x_eq hvw hwvx.symm
        have hxuv : u.1 < v.1 := stk_xpair hord hx hadj hw2
        exact absurd hzero (ne_of_gt (cross_vert_pos hxuv hwvx hwy))
  · exact absurd heq.symm hne_v
  -- now u strictly lex-below w strictly lex-below v
  have hz := hzero
  unfold cross at hz
  by_cases hx_uv : u.1 < v.1
  · have h1 : u.1 < w.1 := by
      rcases lt_or_eq_of_le (lexLt_x_le huw) with h | h
      · exact h
      · exfalso
        have hwy : u.2 < w.2 := lexLt_y_lt_of_x_eq huw h
        rw [← h] at hz
        nlinarith [mul_pos (sub_pos.mpr hx_uv) (sub_pos.mpr hwy), hz]
    have h2 : w.1 < v.1 := by
      rcases lt_or_eq_of_le (lexLt_x_le hwv) with h | h
      · exact h
      · exfalso
        have hwy : w.2 < v.2 := lexLt_y_lt_of_x_eq hwv h
        rw [h] at hz
        nlinarith [mul_pos (sub_pos.mpr hx_uv) (sub_pos.mpr hwy), hz]
    have hd : (0 : ℚ) < v.1 - u.1 := by linarith
    refine ⟨(w.1 - u.1) / (v.1 - u.1), div_pos (by linarith) hd,
      (div_lt_one hd).mpr (by linarith), ?_, ?_⟩
    · field_simp
    · have hne : v.1 - u.1 ≠ 0 := by linarith
      field_simp
      linear_combination hz
  · have hx_eq : u.1 = v.1 := le_antisymm (lexLt_x_le huv) (not_lt.mp hx_uv)
    have hwx : w.1 = u.1 :=
      le_antisymm (hx_eq ▸ lexLt_x_le hwv) (lexLt_x_le huw)
    have hy1 : u.2 < w.2 := lexLt_y_lt_of_x_eq huw hwx.symm
    have hy2 : w.2 < v.2 := lexLt_y_lt_of_x_eq hwv (hwx.trans hx_eq)
    refine ⟨(w.2 - u.2) / (v.2 - u.2), div_pos (by linarith) (by linarith),
      (div_lt_one (by linarith)).mpr (by linarith), ?_, ?_⟩
    · rw [hwx, ← hx_eq]
      ring
    · rw [div_mul_cancel₀ _ (by linarith : v.2 - u.2 ≠ 0)]
      ring


/-! C2 development: the negation mirror, transporting lower-chain facts
to the upper chain. -/

/-- Pointwise negation of a point; scanning the reversed input equals
scanning the negated input in sorted order, up to this mirror. -/
def negP (p : Point) : Point := (-p.1, -p.2)

theorem negP_negP (p : Point) : negP (negP p) = p := by
  unfold negP
  simp

theorem negP_inj {a b : Point} (h : negP a = negP b) : a = b := by
  rw [← negP_negP a, h, negP_negP]

theorem cross_negP (a b c : Point) :
    cross (negP a) (negP b) (negP c) = cross a b c := by
  unfold cross negP
  ring

theorem lexLt_negP {a b : Point} : lexLt (negP a) (negP b) ↔ lexLt b a := by
  unfold lexLt negP
  constructor
  · rintro (h | ⟨h1, h2⟩)
    · exact Or.inl (by simpa using h)
    · exact Or.inr ⟨by simpa using h1.symm, by simpa using h2⟩
  · rintro (h | ⟨h1, h2⟩)
    · exact Or.inl (by simpa using h)
    · exact Or.inr ⟨by simpa using h1.symm, by simpa using h2⟩

theorem lexLe'_negP {a b : Point} : lexLe' (negP a) (negP b) ↔ lexLe' b a := by
  unfold lexLe'
  constructor
  · rintro (h | h)
    · exact Or.inl (lexLt_negP.mp h)
    · exact Or.inr (negP_inj h).symm
  · rintro (h | h)
    · exact Or.inl (lexLt_negP.mpr h)
    · exact Or.inr (congrArg negP h.symm)

theorem chainPush_map_negP : ∀ (st : List Point) (p : Point),
    chainPush (st.map negP) (negP p) = (chainPush st p).map negP := by
  intro st
  induction st with
  | nil => intro p; rfl
  | cons b st' ih =>
    intro p
    cases st' with
    | nil => rfl
    | cons a rest =>
      show chainPush (negP b :: negP a :: rest.map negP) (negP p) = _
      rw [chainPush, chainPush, cross_negP]
      by_cases hc : cross a b p ≤ 0
      · rw [if_pos hc, if_pos hc]
        exact ih p
      · rw [if_neg hc, if_neg hc]
        rfl

theorem foldl_chainPush_map_negP : ∀ (l st : List Point),
    (l.map negP).foldl chainPush (st.map negP) = (l.foldl chainPush st).map negP := by
  intro l
  induction l with
  | nil => intro st; rfl
  | cons p l' ih =>
    intro st
    show (l'.map negP).foldl chainPush (chainPush (st.map negP) (negP p)) = _
    rw [chainPush_map_negP]
    exact ih (chainPush st p)

theorem Adj2_map (f : Point → Point) : ∀ {l : List Point} {u v : Point},
    Adj2 l u v → Adj2 (l.map f) (f u) (f v) := by
  intro l
  induction l with
  | nil => intro u v h; cases h
  | cons x l ih =>
    intro u v h
    cases l with
    | nil => cases h
    | cons y rest =>
      rcases h with ⟨h1, h2⟩ | h
      · exact Or.inl ⟨by rw [h1], by rw [h2]⟩
      · exact Or.inr (ih h)

theorem Adj2_of_map (f : Point → Point) : ∀ {l : List Point} {a b : Point},
    Adj2 (l.map f) a b → ∃ u v, Adj2 l u v ∧ a = f u ∧ b = f v := by
  intro l
  induction l with
  | nil => intro a b h; cases h
  | cons x l ih =>
    intro a b h
    cases l with
    | nil => cases h
    | cons y rest =>
      rcases h with ⟨h1, h2⟩ | h
      · exact ⟨x, y, Or.inl ⟨rfl, rfl⟩, h1, h2⟩
      · obtain ⟨u, v, h3, h4, h5⟩ := ih h
        exact ⟨u, v, Or.inr h3, h4, h5⟩


/-! C2 development: per-chain facts of the finished stacks. -/

theorem cross_aba (a b : Point) : cross a b a = 0 := by
  unfold cross
  ring

theorem cross_abb (a b : Point) : cross a b b = 0 := by
  unfold cross
  ring

/-- A stack entry itself sees every chain edge weakly on its left. -/
theorem mem_APL {st : List Point} (hord : StkOrd st) (ht : StkTurn st)
    (hx : StkX st) {y : Point} (hmem : y ∈ st) : APL st y := by
  cases st with
  | nil => intro u v h; cases h
  | cons a t =>
    cases t with
    | nil => intro u v h; cases h
    | cons b t2 =>
      rcases List.mem_cons.mp hmem with rfl | htail
      · exact chain_all_pairs _ hord ht hx y b y (Or.inl ⟨rfl, rfl⟩)
          (by rw [cross_abb]) (Or.inl (stk_pair_lt hord (Or.inl ⟨rfl, rfl⟩)))
          (Or.inr rfl)
      · obtain ⟨w, hw⟩ := exists_above (show y ∈ (a :: b :: t2).tail from htail)
        exact chain_all_pairs _ hord ht hx y y w hw (by rw [cross_aba])
          (Or.inr rfl) (Or.inl (stk_pair_lt hord hw))

/-- The finished stack of a sorted scan: every processed point is
weakly left of every chain edge. -/
theorem chain_APL (l : List Point) (hpw : List.Pairwise lexLt l) :
    ∀ y ∈ l, APL (l.foldl chainPush []) y := by
  intro y hy
  have inv := stack_inv l hpw
  rcases inv.cov y hy with hmem | ⟨u, v, hadj, hc, h1, h2⟩
  · exact mem_APL inv.ord inv.turn inv.xstrict hmem
  · exact chain_all_pairs _ inv.ord inv.turn inv.xstrict y u v hadj hc h1 h2

/-- The sorted mirror of a list: reversed and negated, restoring the
ascending lexicographic order. -/
def mirrorL (l : List Point) : List Point := (l.reverse).map negP

/-- The upper-chain stack: the fold of the scan over the reversed
input. -/
def upStack (l : List Point) : List Point := (l.reverse).foldl chainPush []

theorem mirror_pairwise {l : List Point} (hpw : List.Pairwise lexLt l) :
    List.Pairwise lexLt (mirrorL l) := by
  unfold mirrorL
  refine List.pairwise_map.mpr ?_
  have h1 : List.Pairwise (fun a b => lexLt b a) l.reverse :=
    List.pairwise_reverse.mpr hpw
  exact h1.imp fun h => lexLt_negP.mpr h

theorem mirror_stack (l : List Point) :
    (mirrorL l).foldl chainPush [] = (upStack l).map negP := by
  unfold mirrorL upStack
  have h := foldl_chainPush_map_negP l.reverse []
  simpa using h

theorem option_map_negP_cancel {o1 o2 : Option Point}
    (h : o1.map negP = o2.map negP) : o1 = o2 := by
  cases o1 with
  | none => cases o2 with
    | none => rfl
    | some b => simp at h
  | some a => cases o2 with
    | none => simp at h
    | some b =>
      simp only [Option.map_some', Option.some.injEq] at h
      rw [negP_inj h]

theorem mem_mirrorL {y : Point} {l : List Point} (hy : y ∈ l) :
    negP y ∈ mirrorL l := by
  unfold mirrorL
  exact List.mem_map.mpr ⟨y, List.mem_reverse.mpr hy, rfl⟩

theorem up_pair_lt {l : List Point} (hpw : List.Pairwise lexLt l)
    {a b : Point} (h : Adj2 (upStack l) b a) : lexLt b a := by
  have h2 : Adj2 ((upStack l).map negP) (negP b) (negP a) := Adj2_map negP h
  rw [← mirror_stack] at h2
  exact lexLt_negP.mp (stk_pair_lt (stack_inv _ (mirror_pairwise hpw)).ord h2)

theorem up_APL {l : List Point} (hpw : List.Pairwise lexLt l)
    {y : Point} (hy : y ∈ l) {u v : Point} (h : Adj2 (upStack l) v u) :
    0 ≤ cross u v y := by
  have h2 : Adj2 ((upStack l).map negP) (negP v) (negP u) := Adj2_map negP h
  rw [← mirror_stack] at h2
  have h3 := chain_APL (mirrorL l) (mirror_pairwise hpw) (negP y) (mem_mirrorL hy)
    (negP u) (negP v) h2
  rwa [cross_negP] at h3

theorem up_head {l : List Point} (hpw : List.Pairwise lexLt l) :
    (upStack l).head? = l.head? := by
  have inv := stack_inv (mirrorL l) (mirror_pairwise hpw)
  have h1 := inv.top
  rw [mirror_stack, List.head?_map] at h1
  have h2 : (mirrorL l).getLast? = l.head?.map negP := by
    unfold mirrorL
    rw [List.getLast?_map, List.getLast?_reverse]
  rw [h2] at h1
  exact option_map_negP_cancel h1

theorem up_last {l : List Point} (hpw : List.Pairwise lexLt l) :
    (upStack l).getLast? = l.getLast? := by
  have inv := stack_inv (mirrorL l) (mirror_pairwise hpw)
  have h1 := inv.bot
  rw [mirror_stack, List.getLast?_map] at h1
  have h2 : (mirrorL l).head? = l.getLast?.map negP := by
    unfold mirrorL
    rw [List.head?_map, List.head?_reverse]
  rw [h2] at h1
  exact option_map_negP_cancel h1

theorem up_sub {l : List Point} {x : Point} (h : x ∈ upStack l) : x ∈ l := by
  unfold upStack at h
  rcases foldl_chainPush_subset l.reverse [] x h with h1 | h2
  · exact List.mem_reverse.mp h1
  · cases h2


theorem up_turn {l : List Point} (hpw : List.Pairwise lexLt l)
    {u x v : Point} (h1 : Adj2 (upStack l) x u) (h2 : Adj2 (upStack l) v x) :
    0 < cross u x v := by
  have inv := stack_inv (mirrorL l) (mirror_pairwise hpw)
  have m1 : Adj2 ((upStack l).map negP) (negP x) (negP u) := Adj2_map negP h1
  have m2 : Adj2 ((upStack l).map negP) (negP v) (negP x) := Adj2_map negP h2
  rw [← mirror_stack] at m1 m2
  have h3 := stk_triple inv.ord inv.turn m1 m2
  rwa [cross_negP] at h3

theorem up_nodup {l : List Point} (hpw : List.Pairwise lexLt l) :
    (upStack l).Nodup := by
  have inv := stack_inv (mirrorL l) (mirror_pairwise hpw)
  have h1 : ((upStack l).map negP).Nodup := by
    rw [← mirror_stack]
    exact StkOrd_nodup inv.ord
  exact h1.of_map

theorem up_cov {l : List Point} (hpw : List.Pairwise lexLt l)
    {y : Point} (hy : y ∈ l) (hns : y ∉ upStack l) :
    ∃ u0 v0, Adj2 (upStack l) u0 v0 ∧ 0 ≤ cross v0 u0 y ∧
      lexLe' u0 y ∧ lexLe' y v0 := by
  have inv := stack_inv (mirrorL l) (mirror_pairwise hpw)
  rcases inv.cov (negP y) (mem_mirrorL hy) with hmem | ⟨a, b, hadj, hc, h1, h2⟩
  · exfalso
    rw [mirror_stack] at hmem
    obtain ⟨z, hz, he⟩ := List.mem_map.mp hmem
    exact hns (negP_inj he.symm ▸ hz)
  · rw [mirror_stack] at hadj
    obtain ⟨u0, v0, hadj2, hb, ha⟩ := Adj2_of_map negP hadj
    refine ⟨u0, v0, hadj2, ?_, ?_, ?_⟩
    · rw [ha, hb, cross_negP] at hc
      exact hc
    · rw [hb] at h2
      exact lexLe'_negP.mp h2
    · rw [ha] at h1
      exact lexLe'_negP.mp h1

/-- Mirror of strict_or_seg for the upper chain: a point of the input
on the line of an upper-chain edge but equal to neither endpoint lies
strictly inside that edge's segment. -/
theorem up_seg {l : List Point} (hpw : List.Pairwise lexLt l)
    {y : Point} (hy : y ∈ l)
    {u0 v0 : Point} (hadj : Adj2 (upStack l) u0 v0)
    (hne_u : y ≠ u0) (hne_v : y ≠ v0)
    (hl_head : ∀ a, l.head? = some a → lexLe' a y)
    (hl_last : ∀ g, l.getLast? = some g → lexLe' y g)
    (hzero : cross v0 u0 y = 0) :
    ∃ s : ℚ, 0 < s ∧ s < 1 ∧ y.1 = v0.1 + s * (u0.1 - v0.1) ∧
      y.2 = v0.2 + s * (u0.2 - v0.2) := by
  have inv := stack_inv (mirrorL l) (mirror_pairwise hpw)
  have m1 : Adj2 ((upStack l).map negP) (negP u0) (negP v0) := Adj2_map negP hadj
  rw [← mirror_stack] at m1
  have hAPL := chain_APL (mirrorL l) (mirror_pairwise hpw) (negP y) (mem_mirrorL hy)
  have hbot : ∀ bb, ((mirrorL l).foldl chainPush []).getLast? = some bb →
      lexLe' bb (negP y) := by
    intro bb hbb
    rw [inv.bot] at hbb
    have h2 : (mirrorL l).head? = l.getLast?.map negP := by
      unfold mirrorL
      rw [List.head?_map, List.head?_reverse]
    rw [h2] at hbb
    cases hg : l.getLast? with
    | none => rw [hg] at hbb; cases hbb
    | some g =>
      rw [hg] at hbb
      injection hbb with he
      rw [← he]
      exact lexLe'_negP.mpr (hl_last g hg)
  have htop : ∀ hh, ((mirrorL l).foldl chainPush []).head? = some hh →
      lexLe' (negP y) hh := by
    intro hh hhh
    rw [inv.top] at hhh
    have h2 : (mirrorL l).getLast? = l.head?.map negP := by
      unfold mirrorL
      rw [List.getLast?_map, List.getLast?_reverse]
    rw [h2] at hhh
    cases hg : l.head? with
    | none => rw [hg] at hhh; cases hhh
    | some a =>
      rw [hg] at hhh
      injection hhh with he
      rw [← he]
      exact lexLe'_negP.mpr (hl_head a hg)
  have hz : cross (negP v0) (negP u0) (negP y) = 0 := by
    rw [cross_negP]
    exact hzero
  obtain ⟨t, ht0, ht1, hx1, hx2⟩ := strict_or_seg inv.ord inv.turn inv.xstrict
    hAPL m1 (fun h => hne_v (negP_inj h)) (fun h => hne_u (negP_inj h))
    hbot htop hz
  refine ⟨t, ht0, ht1, ?_, ?_⟩
  · have e1 : (negP y).1 = -y.1 := rfl
    have e2 : (negP v0).1 = -v0.1 := rfl
    have e3 : (negP u0).1 = -u0.1 := rfl
    rw [e1, e2, e3] at hx1
    linarith
  · have e1 : (negP y).2 = -y.2 := rfl
    have e2 : (negP v0).2 = -v0.2 := rfl
    have e3 : (negP u0).2 = -u0.2 := rfl
    rw [e1, e2, e3] at hx2
    linarith


/-! C2 development: list glue for assembling the two chains into the
closed polygon. -/

theorem mem_of_getLast? : ∀ {l : List Point} {b : Point},
    l.getLast? = some b → b ∈ l := by
  intro l
  induction l with
  | nil => intro b h; cases h
  | cons x t ih =>
    intro b h
    cases t with
    | nil =>
      rw [List.getLast?_singleton] at h
      injection h with he
      subst he
      exact List.mem_singleton_self x
    | cons c t' =>
      rw [List.getLast?_cons_cons] at h
      exact List.mem_cons_of_mem x (ih h)

theorem sorted_head_le {l : List Point} (hpw : List.Pairwise lexLt l)
    {a : Point} (ha : l.head? = some a) : ∀ y ∈ l, lexLe' a y := by
  cases l with
  | nil => cases ha
  | cons x t =>
    injection ha with he
    subst he
    intro y hy
    rcases List.mem_cons.mp hy with rfl | hy
    · exact Or.inr rfl
    · exact Or.inl ((List.pairwise_cons.mp hpw).1 y hy)

theorem sorted_le_last : ∀ {l : List Point}, List.Pairwise lexLt l →
    ∀ {b : Point}, l.getLast? = some b → ∀ y ∈ l, lexLe' y b := by
  intro l
  induction l with
  | nil => intro _ b h; cases h
  | cons x t ih =>
    intro hpw b hb y hy
    cases t with
    | nil =>
      rw [List.getLast?_singleton] at hb
      injection hb with he
      subst he
      rcases List.mem_singleton.mp hy with rfl
      exact Or.inr rfl
    | cons c t' =>
      rw [List.getLast?_cons_cons] at hb
      rcases List.mem_cons.mp hy with rfl | hy
      · exact Or.inl ((List.pairwise_cons.mp hpw).1 b (mem_of_getLast? hb))
      · exact ih (List.pairwise_cons.mp hpw).2 hb y hy

theorem sorted_head_lt_last {l : List Point} (hpw : List.Pairwise lexLt l)
    {a b : Point} (ha : l.head? = some a) (hb : l.getLast? = some b)
    (h2 : 2 ≤ l.length) : lexLt a b := by
  cases l with
  | nil => cases ha
  | cons x t =>
    injection ha with he
    subst he
    cases t with
    | nil => simp at h2
    | cons c t' =>
      rw [List.getLast?_cons_cons] at hb
      exact (List.pairwise_cons.mp hpw).1 b (mem_of_getLast? hb)

theorem two_le_length_of_head_last {l : List Point} {a b : Point}
    (ha : l.head? = some a) (hb : l.getLast? = some b) (hne : a ≠ b) :
    2 ≤ l.length := by
  cases l with
  | nil => cases ha
  | cons x t =>
    cases t with
    | nil =>
      injection ha with h1
      rw [List.getLast?_singleton] at hb
      injection hb with h2
      exact absurd (h1.symm.trans h2) hne
    | cons c t' => simp

theorem exists_getLast?_of_ne_nil : ∀ {l : List Point}, l ≠ [] →
    ∃ b, l.getLast? = some b := by
  intro l
  induction l with
  | nil => intro h; exact absurd rfl h
  | cons x t ih =>
    intro _
    cases t with
    | nil => exact ⟨x, rfl⟩
    | cons c t' =>
      obtain ⟨b, hb⟩ := ih (by simp)
      exact ⟨b, by rw [List.getLast?_cons_cons]; exact hb⟩

theorem head?_dropLast {l : List Point} (h2 : 2 ≤ l.length) :
    l.dropLast.head? = l.head? := by
  match l, h2 with
  | a :: b :: t, _ => rfl

theorem head_mem_dropLast {l : List Point} (h2 : 2 ≤ l.length)
    {a : Point} (ha : l.head? = some a) : a ∈ l.dropLast := by
  cases l with
  | nil => cases ha
  | cons x t =>
    cases t with
    | nil => simp at h2
    | cons b t' =>
      injection ha with he
      rw [← he]
      show x ∈ x :: (b :: t').dropLast
      exact List.mem_cons_self _ _

theorem mem_or_last : ∀ {l : List Point} {x : Point}, x ∈ l →
    x ∈ l.dropLast ∨ l.getLast? = some x := by
  intro l
  induction l with
  | nil => intro x h; cases h
  | cons a t ih =>
    intro x hx
    cases t with
    | nil =>
      rcases List.mem_singleton.mp hx with rfl
      exact Or.inr rfl
    | cons b t' =>
      rcases List.mem_cons.mp hx with rfl | hx
      · exact Or.inl (List.mem_cons_self _ _)
      · rcases ih hx with h | h
        · exact Or.inl (List.mem_cons_of_mem a h)
        · exact Or.inr (by rw [List.getLast?_cons_cons]; exact h)

theorem ne_last_of_mem_dropLast : ∀ {l : List Point}, l.Nodup →
    ∀ {x g : Point}, x ∈ l.dropLast → l.getLast? = some g → x ≠ g := by
  intro l
  induction l with
  | nil => intro _ x g h; cases h
  | cons a t ih =>
    intro hnd x g hx hg
    cases t with
    | nil => cases hx
    | cons b t' =>
      rw [List.getLast?_cons_cons] at hg
      rcases List.mem_cons.mp hx with rfl | hx
      · intro he
        exact (List.nodup_cons.mp hnd).1 (he ▸ mem_of_getLast? hg)
      · exact ih (List.nodup_cons.mp hnd).2 hx hg

theorem Adj2_dropLast : ∀ {l : List Point} {u v : Point},
    Adj2 l.dropLast u v → Adj2 l u v := by
  intro l
  induction l with
  | nil => intro u v h; cases h
  | cons a t ih =>
    intro u v h
    cases t with
    | nil => cases h
    | cons b t' =>
      have he : (a :: b :: t').dropLast = a :: (b :: t').dropLast := rfl
      rw [he] at h
      cases t' with
      | nil => cases h
      | cons c t'' =>
        have he2 : (b :: c :: t'').dropLast = b :: (c :: t'').dropLast := rfl
        rw [he2] at h
        rcases h with ⟨h1, h2⟩ | h
        · exact Or.inl ⟨h1, h2⟩
        · exact Or.inr (ih (by rw [he2]; exact h))

theorem Adj2_last_pair : ∀ {l : List Point} {u v : Point},
    l.dropLast.getLast? = some u → l.getLast? = some v → Adj2 l u v := by
  intro l
  induction l with
  | nil => intro u v h; cases h
  | cons a t ih =>
    intro u v hu hv
    cases t with
    | nil => cases hu
    | cons b t' =>
      rw [List.getLast?_cons_cons] at hv
      have he : (a :: b :: t').dropLast = a :: (b :: t').dropLast := rfl
      rw [he] at hu
      cases t' with
      | nil =>
        injection hu with h1
        injection hv with h2
        exact Or.inl ⟨h1.symm, h2.symm⟩
      | cons c t'' =>
        have he2 : (b :: c :: t'').dropLast = b :: (c :: t'').dropLast := rfl
        have hu2 : (b :: c :: t'').dropLast.getLast? = some u := by
          rw [he2]
          rw [he2, List.getLast?_cons_cons] at hu
          exact hu
        exact Or.inr (ih hu2 hv)

theorem head?_append_left {l1 l2 : List Point} (h : l1 ≠ []) :
    (l1 ++ l2).head? = l1.head? := by
  cases l1 with
  | nil => exact absurd rfl h
  | cons a t => rfl

theorem dropLast_ne_nil_of_two_le {l : List Point} (h2 : 2 ≤ l.length) :
    l.dropLast ≠ [] := by
  match l, h2 with
  | a :: b :: t, _ =>
    show a :: (b :: t).dropLast ≠ []
    simp

/-- Cyclic adjacency in a closed polygon listing: consecutive entries,
or the wrap-around pair from the last entry back to the first. -/
def AdjC (L : List Point) (u v : Point) : Prop :=
  Adj2 L u v ∨ (2 ≤ L.length ∧ L.getLast? = some u ∧ L.head? = some v)


/-! C2 development: every cyclic edge of the assembled polygon is a
chain edge of one of the two stacks. -/

theorem exists_head?_of_ne_nil {l : List Point} (h : l ≠ []) :
    ∃ a, l.head? = some a := by
  cases l with
  | nil => exact absurd rfl h
  | cons a t => exact ⟨a, rfl⟩

theorem two_le_lowStack {l : List Point} (hpw : List.Pairwise lexLt l)
    (h2 : 2 ≤ l.length) : 2 ≤ (l.foldl chainPush []).length := by
  have inv := stack_inv l hpw
  have hne : l ≠ [] := by
    intro h
    rw [h] at h2
    simp at h2
  obtain ⟨b, hb⟩ := exists_getLast?_of_ne_nil hne
  obtain ⟨a, ha⟩ := exists_head?_of_ne_nil hne
  have hlt : lexLt a b := sorted_head_lt_last hpw ha hb h2
  have hh : (l.foldl chainPush []).head? = some b := by rw [inv.top]; exact hb
  have hg : (l.foldl chainPush []).getLast? = some a := by rw [inv.bot]; exact ha
  refine two_le_length_of_head_last hh hg fun h => ?_
  exact lexLt_irrefl a (h ▸ hlt)

theorem two_le_upStack {l : List Point} (hpw : List.Pairwise lexLt l)
    (h2 : 2 ≤ l.length) : 2 ≤ (upStack l).length := by
  have hne : l ≠ [] := by
    intro h
    rw [h] at h2
    simp at h2
  obtain ⟨b, hb⟩ := exists_getLast?_of_ne_nil hne
  obtain ⟨a, ha⟩ := exists_head?_of_ne_nil hne
  have hlt : lexLt a b := sorted_head_lt_last hpw ha hb h2
  have hh : (upStack l).head? = some a := by rw [up_head hpw]; exact ha
  have hg : (upStack l).getLast? = some b := by rw [up_last hpw]; exact hb
  refine two_le_length_of_head_last hh hg fun h => ?_
  exact lexLt_irrefl a (h.symm ▸ hlt)

/-- Every cyclic edge of the polygon assembled from the two chains is
an edge of the lower stack or of the upper stack. -/
theorem cyc_edges {l : List Point} (hpw : List.Pairwise lexLt l)
    (h2 : 2 ≤ l.length) {u v : Point} (h : AdjC (hullCCW l) u v) :
    Adj2 (l.foldl chainPush []) v u ∨ Adj2 (upStack l) v u := by
  have inv := stack_inv l hpw
  have hL2 := two_le_lowStack hpw h2
  have hU2 := two_le_upStack hpw h2
  have hlow : hullCCW l =
      ((l.foldl chainPush []).reverse).dropLast ++ ((upStack l).reverse).dropLast := rfl
  have hlow2 : 2 ≤ ((l.foldl chainPush []).reverse).length := by
    rwa [List.length_reverse]
  have hup2 : 2 ≤ ((upStack l).reverse).length := by
    rwa [List.length_reverse]
  have hldne := dropLast_ne_nil_of_two_le hlow2
  have hudne := dropLast_ne_nil_of_two_le hup2
  rcases h with h | ⟨-, hu, hv⟩
  · rw [hlow] at h
    rcases (Adj2_append _ _ u v).mp h with h | h | ⟨h1, h3⟩
    · exact Or.inl ((Adj2_reverse _ _ _).mp (Adj2_dropLast h))
    · exact Or.inr ((Adj2_reverse _ _ _).mp (Adj2_dropLast h))
    · -- junction: u is the second-to-last of the lower chain, v the
      -- top of the upper chain, which is the lower chain's last point
      rw [head?_dropLast (by rwa [List.length_reverse]), List.head?_reverse,
        up_last hpw] at h3
      have h4 : ((l.foldl chainPush []).reverse).getLast? = some v := by
        rw [List.getLast?_reverse, inv.top]
        exact h3
      have h5 : ((l.foldl chainPush []).reverse).dropLast.getLast? = some u := h1
      exact Or.inl ((Adj2_reverse _ _ _).mp (Adj2_last_pair h5 h4))
  · -- wrap-around: u is the second-to-last of the upper chain, v the
    -- bottom of the lower chain, which is the upper chain's last point
    rw [hlow, head?_append_left hldne,
      head?_dropLast (by rwa [List.length_reverse]), List.head?_reverse] at hv
    rw [hlow, List.getLast?_append_of_ne_nil _ hudne] at hu
    have h4 : ((upStack l).reverse).getLast? = some v := by
      rw [List.getLast?_reverse, up_head hpw, ← inv.bot]
      exact hv
    exact Or.inr ((Adj2_reverse _ _ _).mp (Adj2_last_pair hu h4))

/-- Every input point is weakly left of every cyclic edge of the
polygon returned for a sorted duplicate-free input. -/
theorem hullCCW_enclosure {l : List Point} (hpw : List.Pairwise lexLt l)
    (h2 : 2 ≤ l.length) {u v : Point} (h : AdjC (hullCCW l) u v) :
    ∀ y ∈ l, 0 ≤ cross u v y := by
  intro y hy
  rcases cyc_edges hpw h2 h with h | h
  · exact chain_APL l hpw y hy u v h
  · exact up_APL hpw hy h


/-! C2 development: extreme points via convex combinations. -/

theorem sum_fst (S : Finset Point) (f : Point → Point) :
    (∑ y ∈ S, f y).1 = ∑ y ∈ S, (f y).1 :=
  map_sum (AddMonoidHom.fst ℚ ℚ) f S

theorem sum_snd (S : Finset Point) (f : Point → Point) :
    (∑ y ∈ S, f y).2 = ∑ y ∈ S, (f y).2 :=
  map_sum (AddMonoidHom.snd ℚ ℚ) f S

/-- A point where two affine functionals vanish cannot be a convex
combination of points where the first is nonnegative, the second is
nonnegative whenever the first vanishes, and joint vanishing pins the
point itself. -/
theorem not_mem_hull_of_functionals (S : Finset Point) (x : Point)
    (hxS : x ∉ S) (a1 b1 c1 a2 b2 c2 : ℚ)
    (h1pos : ∀ y ∈ S, 0 ≤ a1 * y.1 + b1 * y.2 + c1)
    (h1x : a1 * x.1 + b1 * x.2 + c1 = 0)
    (h2pos : ∀ y ∈ S, a1 * y.1 + b1 * y.2 + c1 = 0 → 0 ≤ a2 * y.1 + b2 * y.2 + c2)
    (h2x : a2 * x.1 + b2 * x.2 + c2 = 0)
    (hpin : ∀ y ∈ S, a1 * y.1 + b1 * y.2 + c1 = 0 →
      a2 * y.1 + b2 * y.2 + c2 = 0 → y = x) :
    x ∉ convexHull ℚ (↑S : Set Point) := by
  intro hmem
  rw [Finset.convexHull_eq] at hmem
  obtain ⟨w, hw0, hw1, hcm⟩ := hmem
  rw [Finset.centerMass_eq_of_sum_1 _ _ hw1] at hcm
  have hx1 : ∑ y ∈ S, w y * y.1 = x.1 := by
    have h := congrArg Prod.fst hcm
    rw [sum_fst] at h
    simpa [smul_eq_mul] using h
  have hx2 : ∑ y ∈ S, w y * y.2 = x.2 := by
    have h := congrArg Prod.snd hcm
    rw [sum_snd] at h
    simpa [smul_eq_mul] using h
  have expand : ∀ (a b c : ℚ), ∑ y ∈ S, w y * (a * y.1 + b * y.2 + c)
      = a * (∑ y ∈ S, w y * y.1) + b * (∑ y ∈ S, w y * y.2) + c * ∑ y ∈ S, w y := by
    intro a b c
    rw [Finset.mul_sum, Finset.mul_sum, Finset.mul_sum, ← Finset.sum_add_distrib,
      ← Finset.sum_add_distrib]
    refine Finset.sum_congr rfl fun y _ => by ring
  have key1 : ∑ y ∈ S, w y * (a1 * y.1 + b1 * y.2 + c1) = 0 := by
    rw [expand, hx1, hx2, hw1]
    linarith [h1x]
  have hz1 := (Finset.sum_eq_zero_iff_of_nonneg
    (fun y hy => mul_nonneg (hw0 y hy) (h1pos y hy))).mp key1
  have hf1 : ∀ y ∈ S, w y ≠ 0 → a1 * y.1 + b1 * y.2 + c1 = 0 := by
    intro y hy hne
    rcases mul_eq_zero.mp (hz1 y hy) with h | h
    · exact absurd h hne
    · exact h
  have key2 : ∑ y ∈ S, w y * (a2 * y.1 + b2 * y.2 + c2) = 0 := by
    rw [expand, hx1, hx2, hw1]
    linarith [h2x]
  have hnn2 : ∀ y ∈ S, 0 ≤ w y * (a2 * y.1 + b2 * y.2 + c2) := by
    intro y hy
    by_cases hwy : w y = 0
    · rw [hwy, zero_mul]
    · exact mul_nonneg (hw0 y hy) (h2pos y hy (hf1 y hy hwy))
  have hz2 := (Finset.sum_eq_zero_iff_of_nonneg hnn2).mp key2
  have hf2 : ∀ y ∈ S, w y ≠ 0 → a2 * y.1 + b2 * y.2 + c2 = 0 := by
    intro y hy hne
    rcases mul_eq_zero.mp (hz2 y hy) with h | h
    · exact absurd h hne
    · exact h
  have hex : ∃ y ∈ S, w y ≠ 0 := by
    by_contra hall
    push_neg at hall
    rw [Finset.sum_eq_zero hall] at hw1
    exact absurd hw1 (by norm_num)
  obtain ⟨y, hyS, hyw⟩ := hex
  have heq := hpin y hyS (hf1 y hyS hyw) (hf2 y hyS hyw)
  exact hxS (heq ▸ hyS)

/-- Two non-parallel lines meet only at their common point: a point on
the line through u, v and on the line through v, w equals v when
u, v, w are not collinear. -/
theorem two_lines {u v w y : Point} (hnz : cross u v w ≠ 0)
    (h1 : cross u v y = 0) (h2 : cross v w y = 0) : y = v := by
  unfold cross at hnz h1 h2
  have k1 : ((v.1 - u.1) * (w.2 - u.2) - (v.2 - u.2) * (w.1 - u.1)) * (y.1 - v.1) = 0 := by
    linear_combination (u.1 - v.1) * h2 + (w.1 - v.1) * h1
  have k2 : ((v.1 - u.1) * (w.2 - u.2) - (v.2 - u.2) * (w.1 - u.1)) * (y.2 - v.2) = 0 := by
    linear_combination (u.2 - v.2) * h2 + (w.2 - v.2) * h1
  have hy1 : y.1 = v.1 := by
    rcases mul_eq_zero.mp k1 with h | h
    · exact absurd h hnz
    · exact sub_eq_zero.mp h
  have hy2 : y.2 = v.2 := by
    rcases mul_eq_zero.mp k2 with h | h
    · exact absurd h hnz
    · exact sub_eq_zero.mp h
  exact Prod.ext hy1 hy2

theorem hull_set_eq (pts : List Point) (x : Point) :
    {y : Point | y ∈ pts ∧ y ≠ x} = ↑(pts.toFinset.erase x) := by
  ext y
  simp only [Set.mem_setOf_eq, Finset.coe_erase, Set.mem_diff, List.coe_toFinset,
    Set.mem_singleton_iff]

/-- A point of the set with two incident supporting edges making a
genuine corner is extreme: not in the convex hull of the others. -/
theorem vertex_extreme_of_edges (pts : List Point) {x u v : Point}
    (hturn : cross u x v ≠ 0)
    (hleft1 : ∀ y ∈ pts, 0 ≤ cross u x y)
    (hleft2 : ∀ y ∈ pts, 0 ≤ cross x v y) :
    x ∉ convexHull ℚ {y : Point | y ∈ pts ∧ y ≠ x} := by
  rw [hull_set_eq]
  have e1 : ∀ y : Point, (-(x.2 - u.2)) * y.1 + (x.1 - u.1) * y.2 +
      ((x.2 - u.2) * u.1 - (x.1 - u.1) * u.2) = cross u x y := by
    intro y
    unfold cross
    ring
  have e2 : ∀ y : Point, (-(v.2 - x.2)) * y.1 + (v.1 - x.1) * y.2 +
      ((v.2 - x.2) * x.1 - (v.1 - x.1) * x.2) = cross x v y := by
    intro y
    unfold cross
    ring
  refine not_mem_hull_of_functionals _ x (Finset.not_mem_erase x _)
    (-(x.2 - u.2)) (x.1 - u.1) ((x.2 - u.2) * u.1 - (x.1 - u.1) * u.2)
    (-(v.2 - x.2)) (v.1 - x.1) ((v.2 - x.2) * x.1 - (v.1 - x.1) * x.2)
    ?_ ?_ ?_ ?_ ?_
  · intro y hy
    rw [e1]
    exact hleft1 y (List.mem_toFinset.mp (Finset.mem_of_mem_erase hy))
  · rw [e1, cross_abb]
  · intro y hy _
    rw [e2]
    exact hleft2 y (List.mem_toFinset.mp (Finset.mem_of_mem_erase hy))
  · rw [e2, cross_aba]
  · intro y hy hz1 hz2
    rw [e1] at hz1
    rw [e2] at hz2
    exact two_lines hturn hz1 hz2

/-- The lexicographic minimum of the set is extreme. -/
theorem lexmin_extreme (pts : List Point) {x : Point}
    (hmin : ∀ y ∈ pts, lexLe' x y) :
    x ∉ convexHull ℚ {y : Point | y ∈ pts ∧ y ≠ x} := by
  rw [hull_set_eq]
  refine not_mem_hull_of_functionals _ x (Finset.not_mem_erase x _)
    1 0 (-x.1) 0 1 (-x.2) ?_ (by ring) ?_ (by ring) ?_
  · intro y hy
    have h := lexLe'_x_le (hmin y (List.mem_toFinset.mp (Finset.mem_of_mem_erase hy)))
    linarith
  · intro y hy hz
    have hxy : x.1 = y.1 := by linarith
    have h := lexLe'_y_le_of_x_eq
      (hmin y (List.mem_toFinset.mp (Finset.mem_of_mem_erase hy))) hxy
    linarith
  · intro y _ hz1 hz2
    refine Prod.ext (by linarith) (by linarith)

/-- The lexicographic maximum of the set is extreme. -/
theorem lexmax_extreme (pts : List Point) {x : Point}
    (hmax : ∀ y ∈ pts, lexLe' y x) :
    x ∉ convexHull ℚ {y : Point | y ∈ pts ∧ y ≠ x} := by
  rw [hull_set_eq]
  refine not_mem_hull_of_functionals _ x (Finset.not_mem_erase x _)
    (-1) 0 x.1 0 (-1) x.2 ?_ (by ring) ?_ (by ring) ?_
  · intro y hy
    have h := lexLe'_x_le (hmax y (List.mem_toFinset.mp (Finset.mem_of_mem_erase hy)))
    linarith
  · intro y hy hz
    have hxy : y.1 = x.1 := by linarith
    have h := lexLe'_y_le_of_x_eq
      (hmax y (List.mem_toFinset.mp (Finset.mem_of_mem_erase hy))) hxy
    linarith
  · intro y _ hz1 hz2
    refine Prod.ext (by linarith) (by linarith)


/-! C2 development: each returned vertex is an extreme point. -/

theorem mem_tail_of_ne_head {st : List Point} {x hh : Point}
    (hmem : x ∈ st) (hh0 : st.head? = some hh) (hne : x ≠ hh) : x ∈ st.tail := by
  cases st with
  | nil => cases hmem
  | cons a t =>
    injection hh0 with he
    subst he
    rcases List.mem_cons.mp hmem with rfl | h
    · exact absurd rfl hne
    · exact h

/-- Every vertex of the assembled polygon is an extreme point of the
sorted input. -/
theorem hullCCW_vertex_extreme {l : List Point} (hpw : List.Pairwise lexLt l)
    (h2 : 2 ≤ l.length) {x : Point} (hx : x ∈ hullCCW l) :
    x ∉ convexHull ℚ {y : Point | y ∈ l ∧ y ≠ x} := by
  have inv := stack_inv l hpw
  have hne : l ≠ [] := by
    intro h
    rw [h] at h2
    simp at h2
  obtain ⟨p0, hp0⟩ := exists_head?_of_ne_nil hne
  obtain ⟨pk, hpk⟩ := exists_getLast?_of_ne_nil hne
  have hlowlast : ((l.foldl chainPush []).reverse).getLast? = some pk := by
    rw [List.getLast?_reverse, inv.top]
    exact hpk
  have huplast : ((upStack l).reverse).getLast? = some p0 := by
    rw [List.getLast?_reverse, up_head hpw]
    exact hp0
  rcases List.mem_append.mp hx with hxl | hxu
  · -- on the lower chain, the final vertex dropped
    have hmemL : x ∈ l.foldl chainPush [] :=
      List.mem_reverse.mp (List.dropLast_subset _ hxl)
    have hndL : ((l.foldl chainPush []).reverse).Nodup :=
      List.nodup_reverse.mpr (StkOrd_nodup inv.ord)
    have hxpk : x ≠ pk := ne_last_of_mem_dropLast hndL hxl hlowlast
    by_cases hxp0 : x = p0
    · subst hxp0
      exact lexmin_extreme l (sorted_head_le hpw hp0)
    · have hhead : (l.foldl chainPush []).head? = some pk := by
        rw [inv.top]
        exact hpk
      have hlast : (l.foldl chainPush []).getLast? = some p0 := by
        rw [inv.bot]
        exact hp0
      have htl : x ∈ (l.foldl chainPush []).tail :=
        mem_tail_of_ne_head hmemL hhead hxpk
      obtain ⟨va, hva⟩ := exists_above htl
      obtain ⟨ub, hub⟩ := exists_below hmemL (by
        rw [hlast]
        intro h
        injection h with h
        exact hxp0 h.symm)
      have hturn : 0 < cross ub x va := stk_triple inv.ord inv.turn hub hva
      refine vertex_extreme_of_edges l (ne_of_gt hturn) ?_ ?_
      · intro y hy
        exact chain_APL l hpw y hy ub x hub
      · intro y hy
        exact chain_APL l hpw y hy x va hva
  · -- on the upper chain, the final vertex dropped
    have hmemU : x ∈ upStack l :=
      List.mem_reverse.mp (List.dropLast_subset _ hxu)
    have hndU : ((upStack l).reverse).Nodup := List.nodup_reverse.mpr (up_nodup hpw)
    have hxp0 : x ≠ p0 := ne_last_of_mem_dropLast hndU hxu huplast
    by_cases hxpk : x = pk
    · subst hxpk
      exact lexmax_extreme l (sorted_le_last hpw hpk)
    · have hhead : (upStack l).head? = some p0 := by
        rw [up_head hpw]
        exact hp0
      have hlast : (upStack l).getLast? = some pk := by
        rw [up_last hpw]
        exact hpk
      have htl : x ∈ (upStack l).tail := mem_tail_of_ne_head hmemU hhead hxp0
      obtain ⟨a, ha⟩ := exists_above htl
      obtain ⟨b, hb⟩ := exists_below hmemU (by
        rw [hlast]
        intro h
        injection h with h
        exact hxpk h.symm)
      have hturn : 0 < cross b x a := up_turn hpw hb ha
      refine vertex_extreme_of_edges l (ne_of_gt hturn) ?_ ?_
      · intro y hy
        exact up_APL hpw hy hb
      · intro y hy
        exact up_APL hpw hy ha


/-! C2 development: a dropped point lies in the convex hull of the
others. -/

theorem seg_mem_of_mem_hull {S : Set Point} {u v y : Point}
    (hu : u ∈ convexHull ℚ S) (hv : v ∈ convexHull ℚ S)
    {s : ℚ} (h0 : 0 ≤ s) (h1 : s ≤ 1)
    (hx1 : y.1 = u.1 + s * (v.1 - u.1)) (hx2 : y.2 = u.2 + s * (v.2 - u.2)) :
    y ∈ convexHull ℚ S := by
  have c1 : ((1 - s) • u + s • v).1 = u.1 + s * (v.1 - u.1) := by
    simp only [Prod.fst_add, Prod.smul_fst, smul_eq_mul]
    ring
  have c2 : ((1 - s) • u + s • v).2 = u.2 + s * (v.2 - u.2) := by
    simp only [Prod.snd_add, Prod.smul_snd, smul_eq_mul]
    ring
  have hy : y = (1 - s) • u + s • v :=
    (Prod.ext (c1.trans hx1.symm) (c2.trans hx2.symm)).symm
  rw [hy]
  exact (convex_convexHull ℚ S) hu hv (by linarith) h0 (by ring)

theorem seg_mem_hull {S : Set Point} {u v y : Point} (hu : u ∈ S) (hv : v ∈ S)
    {s : ℚ} (h0 : 0 ≤ s) (h1 : s ≤ 1)
    (hx1 : y.1 = u.1 + s * (v.1 - u.1)) (hx2 : y.2 = u.2 + s * (v.2 - u.2)) :
    y ∈ convexHull ℚ S :=
  seg_mem_of_mem_hull (subset_convexHull ℚ S hu) (subset_convexHull ℚ S hv)
    h0 h1 hx1 hx2

/-- A point strictly above a covering lower edge and strictly below a
covering upper edge, horizontally spanned by both, lies in the convex
hull of the four edge endpoints. -/
theorem between_hull {S : Set Point} {u v u0 v0 y : Point}
    (hu : u ∈ S) (hv : v ∈ S) (hu0 : u0 ∈ S) (hv0 : v0 ∈ S)
    (hxl : u.1 ≤ y.1) (hxr : y.1 ≤ v.1)
    (hxl2 : u0.1 ≤ y.1) (hxr2 : y.1 ≤ v0.1)
    (hlow : 0 < cross u v y) (hup : 0 < cross v0 u0 y) :
    y ∈ convexHull ℚ S := by
  unfold cross at hlow hup
  have hdl : u.1 < v.1 := by
    rcases lt_or_eq_of_le (hxl.trans hxr) with h | h
    · exact h
    · exfalso
      have hy1 : y.1 = u.1 := le_antisymm (h ▸ hxr) hxl
      rw [← h, hy1] at hlow
      linarith
  have hdu : u0.1 < v0.1 := by
    rcases lt_or_eq_of_le (hxl2.trans hxr2) with h | h
    · exact h
    · exfalso
      have hy1 : y.1 = v0.1 := le_antisymm hxr2 (h ▸ hxl2)
      rw [← h] at hup
      rw [hy1, ← h] at hup
      linarith
  have hne1 : v.1 - u.1 ≠ 0 := by
    intro h
    exact absurd (by linarith : v.1 ≤ u.1) (not_le.mpr hdl)
  have hne2 : v0.1 - u0.1 ≠ 0 := by
    intro h
    exact absurd (by linarith : v0.1 ≤ u0.1) (not_le.mpr hdu)
  set s := (y.1 - u.1) / (v.1 - u.1) with hs
  set t := (y.1 - u0.1) / (v0.1 - u0.1) with ht
  have hs0 : 0 ≤ s := div_nonneg (by linarith) (by linarith)
  have hs1 : s ≤ 1 := (div_le_one (by linarith)).mpr (by linarith)
  have ht0 : 0 ≤ t := div_nonneg (by linarith) (by linarith)
  have ht1 : t ≤ 1 := (div_le_one (by linarith)).mpr (by linarith)
  have hB : (1 - s) • u + s • v ∈ convexHull ℚ S :=
    (convex_convexHull ℚ S) (subset_convexHull ℚ S hu) (subset_convexHull ℚ S hv)
      (by linarith) hs0 (by ring)
  have hT : (1 - t) • u0 + t • v0 ∈ convexHull ℚ S :=
    (convex_convexHull ℚ S) (subset_convexHull ℚ S hu0) (subset_convexHull ℚ S hv0)
      (by linarith) ht0 (by ring)
  have hBfst : ((1 - s) • u + s • v).1 = y.1 := by
    simp only [Prod.fst_add, Prod.smul_fst, smul_eq_mul]
    rw [hs]
    field_simp
    ring
  have hTfst : ((1 - t) • u0 + t • v0).1 = y.1 := by
    simp only [Prod.fst_add, Prod.smul_fst, smul_eq_mul]
    rw [ht]
    field_simp
    ring
  have hBsnd : ((1 - s) • u + s • v).2 * (v.1 - u.1) =
      u.2 * (v.1 - y.1) + v.2 * (y.1 - u.1) := by
    simp only [Prod.snd_add, Prod.smul_snd, smul_eq_mul]
    rw [hs]
    field_simp
    ring
  have hTsnd : ((1 - t) • u0 + t • v0).2 * (v0.1 - u0.1) =
      u0.2 * (v0.1 - y.1) + v0.2 * (y.1 - u0.1) := by
    simp only [Prod.snd_add, Prod.smul_snd, smul_eq_mul]
    rw [ht]
    field_simp
    ring
  have hBy : ((1 - s) • u + s • v).2 < y.2 := by
    have h1 : ((1 - s) • u + s • v).2 * (v.1 - u.1) < y.2 * (v.1 - u.1) := by
      rw [hBsnd]
      nlinarith [hlow]
    exact lt_of_mul_lt_mul_right h1 (by linarith)
  have hTy : y.2 < ((1 - t) • u0 + t • v0).2 := by
    have h1 : y.2 * (v0.1 - u0.1) < ((1 - t) • u0 + t • v0).2 * (v0.1 - u0.1) := by
      rw [hTsnd]
      nlinarith [hup]
    exact lt_of_mul_lt_mul_right h1 (by linarith)
  have hr0 : (0 : ℚ) ≤ (y.2 - ((1 - s) • u + s • v).2) /
      (((1 - t) • u0 + t • v0).2 - ((1 - s) • u + s • v).2) :=
    div_nonneg (by linarith) (by linarith)
  have hr1 : (y.2 - ((1 - s) • u + s • v).2) /
      (((1 - t) • u0 + t • v0).2 - ((1 - s) • u + s • v).2) ≤ 1 :=
    (div_le_one (by linarith)).mpr (by linarith)
  refine seg_mem_of_mem_hull hB hT hr0 hr1 ?_ ?_
  · rw [hBfst, hTfst]
    ring
  · rw [div_mul_cancel₀ _ (by linarith :
      ((1 - t) • u0 + t • v0).2 - ((1 - s) • u + s • v).2 ≠ 0)]
    ring


/-- Every input point not returned as a polygon vertex lies in the
convex hull of the other input points. -/
theorem hullCCW_nonvertex_in_hull {l : List Point} (hpw : List.Pairwise lexLt l)
    (h2 : 2 ≤ l.length) {y : Point} (hy : y ∈ l) (hny : y ∉ hullCCW l) :
    y ∈ convexHull ℚ {z : Point | z ∈ l ∧ z ≠ y} := by
  have inv := stack_inv l hpw
  have hne : l ≠ [] := by
    intro h
    rw [h] at h2
    simp at h2
  obtain ⟨p0, hp0⟩ := exists_head?_of_ne_nil hne
  obtain ⟨pk, hpk⟩ := exists_getLast?_of_ne_nil hne
  have hlow2 : 2 ≤ ((l.foldl chainPush []).reverse).length := by
    rw [List.length_reverse]
    exact two_le_lowStack hpw h2
  have hup2 : 2 ≤ ((upStack l).reverse).length := by
    rw [List.length_reverse]
    exact two_le_upStack hpw h2
  have hynL : y ∉ l.foldl chainPush [] := by
    intro hmem
    have hrev : y ∈ (l.foldl chainPush []).reverse := List.mem_reverse.mpr hmem
    rcases mem_or_last hrev with hdl | hlast
    · exact hny (List.mem_append.mpr (Or.inl hdl))
    · rw [List.getLast?_reverse, inv.top, hpk] at hlast
      injection hlast with he
      have hupper : y ∈ ((upStack l).reverse).dropLast := by
        refine head_mem_dropLast hup2 ?_
        rw [List.head?_reverse, up_last hpw, hpk, he]
      exact hny (List.mem_append.mpr (Or.inr hupper))
  have hynU : y ∉ upStack l := by
    intro hmem
    have hrev : y ∈ (upStack l).reverse := List.mem_reverse.mpr hmem
    rcases mem_or_last hrev with hdl | hlast
    · exact hny (List.mem_append.mpr (Or.inr hdl))
    · rw [List.getLast?_reverse, up_head hpw, hp0] at hlast
      injection hlast with he
      have hlower : y ∈ ((l.foldl chainPush []).reverse).dropLast := by
        refine head_mem_dropLast hlow2 ?_
        rw [List.head?_reverse, inv.bot, hp0, he]
      exact hny (List.mem_append.mpr (Or.inl hlower))
  have hcovL : Cov (l.foldl chainPush []) y := inv.cov y hy
  rcases hcovL with hmem | ⟨u, v, hadjL, hcl, hl1, hl2⟩
  · exact absurd hmem hynL
  obtain ⟨u0, v0, hadjU, hcu, hu1, hu2⟩ := up_cov hpw hy hynU
  have hul : u ∈ l := inv.sub u (Adj2_mem hadjL).2
  have hvl : v ∈ l := inv.sub v (Adj2_mem hadjL).1
  have hu0l : u0 ∈ l := up_sub (Adj2_mem hadjU).1
  have hv0l : v0 ∈ l := up_sub (Adj2_mem hadjU).2
  have hneu : y ≠ u := fun h => hynL (h ▸ (Adj2_mem hadjL).2)
  have hnev : y ≠ v := fun h => hynL (h ▸ (Adj2_mem hadjL).1)
  have hneu0 : y ≠ u0 := fun h => hynU (h ▸ (Adj2_mem hadjU).1)
  have hnev0 : y ≠ v0 := fun h => hynU (h ▸ (Adj2_mem hadjU).2)
  rcases eq_or_lt_of_le hcl with hz | hposL
  · -- y on the line of the lower covering edge: strictly inside it
    obtain ⟨sP, h0, h1, e1, e2⟩ := strict_or_seg inv.ord inv.turn inv.xstrict
      (chain_APL l hpw y hy) hadjL hneu hnev
      (by
        intro bb hbb
        rw [inv.bot] at hbb
        exact sorted_head_le hpw hbb y hy)
      (by
        intro hh hhh
        rw [inv.top] at hhh
        exact sorted_le_last hpw hhh y hy)
      hz.symm
    exact seg_mem_hull ⟨hul, hneu.symm⟩ ⟨hvl, hnev.symm⟩ (le_of_lt h0)
      (le_of_lt h1) e1 e2
  rcases eq_or_lt_of_le hcu with hz | hposU
  · -- y on the line of the upper covering edge: strictly inside it
    obtain ⟨sP, h0, h1, e1, e2⟩ := up_seg hpw hy hadjU hneu0 hnev0
      (fun a ha => sorted_head_le hpw ha y hy)
      (fun g hg => sorted_le_last hpw hg y hy)
      hz.symm
    exact seg_mem_hull ⟨hv0l, hnev0.symm⟩ ⟨hu0l, hneu0.symm⟩ (le_of_lt h0)
      (le_of_lt h1) e1 e2
  · -- y strictly between the two chains
    exact between_hull ⟨hul, hneu.symm⟩ ⟨hvl, hnev.symm⟩ ⟨hu0l, hneu0.symm⟩
      ⟨hv0l, hnev0.symm⟩ (lexLe'_x_le hl1) (lexLe'_x_le hl2)
      (lexLe'_x_le hu1) (lexLe'_x_le hu2) hposL hposU


/-- The assembled polygon lists no vertex twice. -/
theorem hullCCW_nodup {l : List Point} (hpw : List.Pairwise lexLt l)
    (h2 : 2 ≤ l.length) : (hullCCW l).Nodup := by
  have inv := stack_inv l hpw
  have hne : l ≠ [] := by
    intro h
    rw [h] at h2
    simp at h2
  obtain ⟨p0, hp0⟩ := exists_head?_of_ne_nil hne
  obtain ⟨pk, hpk⟩ := exists_getLast?_of_ne_nil hne
  have hndL : ((l.foldl chainPush []).reverse).Nodup :=
    List.nodup_reverse.mpr (StkOrd_nodup inv.ord)
  have hndU : ((upStack l).reverse).Nodup := List.nodup_reverse.mpr (up_nodup hpw)
  have hlowlast : ((l.foldl chainPush []).reverse).getLast? = some pk := by
    rw [List.getLast?_reverse, inv.top]
    exact hpk
  have huplast : ((upStack l).reverse).getLast? = some p0 := by
    rw [List.getLast?_reverse, up_head hpw]
    exact hp0
  refine List.nodup_append.mpr ⟨hndL.sublist (List.dropLast_sublist _),
    hndU.sublist (List.dropLast_sublist _), ?_⟩
  intro x hx1 hx2
  have hmemL : x ∈ l.foldl chainPush [] :=
    List.mem_reverse.mp (List.dropLast_subset _ hx1)
  have hmemU : x ∈ upStack l :=
    List.mem_reverse.mp (List.dropLast_subset _ hx2)
  have hxpk : x ≠ pk := ne_last_of_mem_dropLast hndL hx1 hlowlast
  have hxp0 : x ≠ p0 := ne_last_of_mem_dropLast hndU hx2 huplast
  -- lower-stack neighbours of the interior vertex x
  have hheadL : (l.foldl chainPush []).head? = some pk := by
    rw [inv.top]
    exact hpk
  have hlastL : (l.foldl chainPush []).getLast? = some p0 := by
    rw [inv.bot]
    exact hp0
  obtain ⟨w1, hw1⟩ := exists_above (mem_tail_of_ne_head hmemL hheadL hxpk)
  obtain ⟨u1, hu1⟩ := exists_below hmemL (by
    rw [hlastL]
    intro h
    injection h with h
    exact hxp0 h.symm)
  -- the upper-stack neighbour below x, lexicographically above x
  obtain ⟨b1, hb1⟩ := exists_below hmemU (by
    rw [up_last hpw, hpk]
    intro h
    injection h with h
    exact hxpk h.symm)
  have hxb1 : lexLt x b1 := up_pair_lt hpw hb1
  have hb1l : b1 ∈ l := up_sub (Adj2_mem hb1).2
  have hu1l : u1 ∈ l := inv.sub u1 (Adj2_mem hu1).2
  have henc1 : 0 ≤ cross u1 x b1 := chain_APL l hpw b1 hb1l u1 x hu1
  have henc2 : 0 ≤ cross b1 x u1 := up_APL hpw hu1l hb1
  have hzero : cross u1 x b1 = 0 := by
    rw [cross_swap13] at henc2
    linarith
  have hu1x : u1.1 < x.1 := stk_xpair inv.ord inv.xstrict hu1 hw1
  have hu1b1 : lexLt u1 b1 := lexLt_trans (stk_pair_lt inv.ord hu1) hxb1
  obtain ⟨sQ, hs0, hs1, e1, e2⟩ := strict_or_seg inv.ord inv.turn inv.xstrict
    (chain_APL l hpw b1 hb1l) hu1 (lexLt_ne hu1b1).symm (lexLt_ne hxb1).symm
    (by
      intro bb hbb
      rw [inv.bot] at hbb
      exact sorted_head_le hpw hbb b1 hb1l)
    (by
      intro hh hhh
      rw [inv.top] at hhh
      exact sorted_le_last hpw hhh b1 hb1l)
    hzero
  have hlt : b1.1 < x.1 := by
    nlinarith [mul_pos (by linarith : (0:ℚ) < 1 - sQ) (by linarith : (0:ℚ) < x.1 - u1.1)]
  exact absurd (lexLt_x_le hxb1) (not_le.mpr hlt)


/-! C2 development: a non-collinear input yields at least three
vertices. -/

theorem par_trans {d b c : ℚ × ℚ} (hd : d ≠ (0, 0))
    (h1 : d.1 * b.2 - d.2 * b.1 = 0) (h2 : d.1 * c.2 - d.2 * c.1 = 0) :
    b.1 * c.2 - b.2 * c.1 = 0 := by
  by_cases hd1 : d.1 = 0
  · have hd2 : d.2 ≠ 0 := by
      intro h
      exact hd (Prod.ext hd1 h)
    have key : d.2 * (b.1 * c.2 - b.2 * c.1) = 0 := by
      linear_combination b.2 * h2 - c.2 * h1
    rcases mul_eq_zero.mp key with h | h
    · exact absurd h hd2
    · exact h
  · have key : d.1 * (b.1 * c.2 - b.2 * c.1) = 0 := by
      linear_combination b.1 * h2 - c.1 * h1
    rcases mul_eq_zero.mp key with h | h
    · exact absurd h hd1
    · exact h

theorem line_collinear {p q a b c : Point} (hpq : p ≠ q)
    (ha : cross p q a = 0) (hb : cross p q b = 0) (hc : cross p q c = 0) :
    cross a b c = 0 := by
  unfold cross at ha hb hc
  have hd : ((q.1 - p.1, q.2 - p.2) : ℚ × ℚ) ≠ (0, 0) := by
    intro h
    have h1 : q.1 - p.1 = 0 := congrArg Prod.fst h
    have h2 : q.2 - p.2 = 0 := congrArg Prod.snd h
    exact hpq (Prod.ext (by linarith) (by linarith)).symm
  have hAB : (a.1 - p.1) * (b.2 - p.2) - (a.2 - p.2) * (b.1 - p.1) = 0 :=
    @par_trans (q.1 - p.1, q.2 - p.2) (a.1 - p.1, a.2 - p.2)
      (b.1 - p.1, b.2 - p.2) hd ha hb
  have hAC : (a.1 - p.1) * (c.2 - p.2) - (a.2 - p.2) * (c.1 - p.1) = 0 :=
    @par_trans (q.1 - p.1, q.2 - p.2) (a.1 - p.1, a.2 - p.2)
      (c.1 - p.1, c.2 - p.2) hd ha hc
  have hBC : (b.1 - p.1) * (c.2 - p.2) - (b.2 - p.2) * (c.1 - p.1) = 0 :=
    @par_trans (q.1 - p.1, q.2 - p.2) (b.1 - p.1, b.2 - p.2)
      (c.1 - p.1, c.2 - p.2) hd hb hc
  unfold cross
  linear_combination hBC + hAB - hAC

/-- The assembled polygon of a sorted duplicate-free input that
contains a non-collinear triple has at least three vertices. -/
theorem three_le_hullCCW {l : List Point} (hpw : List.Pairwise lexLt l)
    (h2 : 2 ≤ l.length)
    (hnc : ∃ a ∈ l, ∃ b ∈ l, ∃ c ∈ l, cross a b c ≠ 0) :
    3 ≤ (hullCCW l).length := by
  have inv := stack_inv l hpw
  have hne : l ≠ [] := by
    intro h
    rw [h] at h2
    simp at h2
  obtain ⟨p0, hp0⟩ := exists_head?_of_ne_nil hne
  obtain ⟨pk, hpk⟩ := exists_getLast?_of_ne_nil hne
  have hp0pk : lexLt p0 pk := sorted_head_lt_last hpw hp0 hpk h2
  have hL2 := two_le_lowStack hpw h2
  have hU2 := two_le_upStack hpw h2
  have hheadL : (l.foldl chainPush []).head? = some pk := by
    rw [inv.top]
    exact hpk
  have hlastL : (l.foldl chainPush []).getLast? = some p0 := by
    rw [inv.bot]
    exact hp0
  have hyoff : ∃ y ∈ l, cross p0 pk y ≠ 0 := by
    by_contra hall
    push_neg at hall
    obtain ⟨a, ha, b, hb, c, hc, habc⟩ := hnc
    exact habc (line_collinear (lexLt_ne hp0pk) (hall a ha) (hall b hb) (hall c hc))
  obtain ⟨y, hy, hyc⟩ := hyoff
  have hlen : (hullCCW l).length =
      (l.foldl chainPush []).length - 1 + ((upStack l).length - 1) := by
    unfold hullCCW halfChain
    rw [List.length_append, List.length_dropLast, List.length_dropLast,
      List.length_reverse, List.length_reverse]
    rfl
  rcases lt_or_gt_of_ne hyc with hneg | hpos
  · -- a point strictly below the line: the lower chain keeps a middle vertex
    have h3 : 3 ≤ (l.foldl chainPush []).length := by
      by_contra hlt
      push_neg at hlt
      have he2 : (l.foldl chainPush []).length = 2 := le_antisymm (by omega) hL2
      obtain ⟨a, b, hab⟩ := List.length_eq_two.mp he2
      rw [hab] at hheadL hlastL
      injection hheadL with ha2
      rw [List.getLast?_cons_cons, List.getLast?_singleton] at hlastL
      injection hlastL with hb2
      have hadj : Adj2 (l.foldl chainPush []) pk p0 := by
        rw [hab, ha2, hb2]
        exact Or.inl ⟨rfl, rfl⟩
      have := chain_APL l hpw y hy p0 pk hadj
      linarith
    omega
  · -- a point strictly above the line: the upper chain keeps a middle vertex
    have h3 : 3 ≤ (upStack l).length := by
      by_contra hlt
      push_neg at hlt
      have he2 : (upStack l).length = 2 := le_antisymm (by omega) hU2
      obtain ⟨a, b, hab⟩ := List.length_eq_two.mp he2
      have hheadU : (upStack l).head? = some p0 := by
        rw [up_head hpw]
        exact hp0
      have hlastU : (upStack l).getLast? = some pk := by
        rw [up_last hpw]
        exact hpk
      rw [hab] at hheadU hlastU
      injection hheadU with ha2
      rw [List.getLast?_cons_cons, List.getLast?_singleton] at hlastU
      injection hlastU with hb2
      have hadj : Adj2 (upStack l) p0 pk := by
        rw [hab, ha2, hb2]
        exact Or.inl ⟨rfl, rfl⟩
      have := up_APL hpw hy hadj
      rw [cross_swap12] at this
      linarith
    omega


/-! C2 development: corner turns at the two chain junctions. -/

theorem not_Adj2_getLast : ∀ {l : List Point}, l.Nodup → ∀ {u v : Point},
    Adj2 l u v → l.getLast? = some u → False := by
  intro l
  induction l with
  | nil => intro _ u v h; cases h
  | cons x t ih =>
    intro hnd u v h hlast
    cases t with
    | nil => cases h
    | cons y t' =>
      rw [List.getLast?_cons_cons] at hlast
      rcases h with ⟨hu, hv⟩ | h
      · subst hu
        exact (List.nodup_cons.mp hnd).1 (mem_of_getLast? hlast)
      · exact ih (List.nodup_cons.mp hnd).2 h hlast

theorem not_Adj2_head : ∀ {l : List Point}, l.Nodup → ∀ {u v : Point},
    Adj2 l u v → l.head? = some v → False := by
  intro l
  induction l with
  | nil => intro _ u v h; cases h
  | cons x t ih =>
    intro hnd u v h hhead
    injection hhead with he
    subst he
    cases t with
    | nil => cases h
    | cons y t' =>
      rcases h with ⟨hu, hv⟩ | h
      · exact (List.nodup_cons.mp hnd).1 (hv ▸ List.mem_cons_self y t')
      · exact (List.nodup_cons.mp hnd).1 (Adj2_mem h).2

theorem len2_of_adj_head_last {l : List Point} (hnd : l.Nodup) {u v : Point}
    (h : Adj2 l u v) (hh : l.head? = some u) (hl : l.getLast? = some v) :
    l.length = 2 := by
  cases l with
  | nil => cases h
  | cons x t =>
    injection hh with he
    subst he
    cases t with
    | nil => cases h
    | cons y t' =>
      rw [List.getLast?_cons_cons] at hl
      rcases h with ⟨-, hv⟩ | h
      · subst hv
        cases t' with
        | nil => rfl
        | cons z t'' =>
          exfalso
          rw [List.getLast?_cons_cons] at hl
          exact (List.nodup_cons.mp (List.nodup_cons.mp hnd).2).1 (mem_of_getLast? hl)
      · exact absurd (Adj2_mem h).1 (List.nodup_cons.mp hnd).1

theorem hullCCW_length (l : List Point) :
    (hullCCW l).length =
      (l.foldl chainPush []).length - 1 + ((upStack l).length - 1) := by
  unfold hullCCW halfChain
  rw [List.length_append, List.length_dropLast, List.length_dropLast,
    List.length_reverse, List.length_reverse]
  rfl

/-- Two mutual strict interior placements on one line collapse the
segment: impossible. -/
theorem seg_collapse {w p z : Point} (hne : w ≠ p)
    {s1 s2 : ℚ} (hs1a : 0 < s1) (hs1b : s1 < 1) (hs2a : 0 < s2) (hs2b : s2 < 1)
    (e1 : z.1 = w.1 + s1 * (p.1 - w.1)) (e2 : z.2 = w.2 + s1 * (p.2 - w.2))
    (f1 : w.1 = p.1 + s2 * (z.1 - p.1)) (f2 : w.2 = p.2 + s2 * (z.2 - p.2)) :
    False := by
  have hfac : 0 < 1 - s2 * (1 - s1) := by nlinarith
  have k1 : (w.1 - p.1) * (1 - s2 * (1 - s1)) = 0 := by
    linear_combination f1 + s2 * e1
  have k2 : (w.2 - p.2) * (1 - s2 * (1 - s1)) = 0 := by
    linear_combination f2 + s2 * e2
  have h1 : w.1 = p.1 := by
    rcases mul_eq_zero.mp k1 with h | h
    · linarith [sub_eq_zero.mp h]
    · linarith
  have h2 : w.2 = p.2 := by
    rcases mul_eq_zero.mp k2 with h | h
    · linarith [sub_eq_zero.mp h]
    · linarith
  exact hne (Prod.ext h1 h2)

/-- A point on both stacks is one of the two shared endpoints. -/
theorem stacks_meet {l : List Point} (hpw : List.Pairwise lexLt l)
    (h2 : 2 ≤ l.length) {x : Point} (hmemL : x ∈ l.foldl chainPush [])
    (hmemU : x ∈ upStack l) :
    l.head? = some x ∨ l.getLast? = some x := by
  have inv := stack_inv l hpw
  have hne : l ≠ [] := by
    intro h
    rw [h] at h2
    simp at h2
  obtain ⟨p0, hp0⟩ := exists_head?_of_ne_nil hne
  obtain ⟨pk, hpk⟩ := exists_getLast?_of_ne_nil hne
  by_cases hxp0 : x = p0
  · exact Or.inl (by rw [hp0, hxp0])
  by_cases hxpk : x = pk
  · exact Or.inr (by rw [hpk, hxpk])
  exfalso
  have hheadL : (l.foldl chainPush []).head? = some pk := by
    rw [inv.top]
    exact hpk
  have hlastL : (l.foldl chainPush []).getLast? = some p0 := by
    rw [inv.bot]
    exact hp0
  obtain ⟨w1, hw1⟩ := exists_above (mem_tail_of_ne_head hmemL hheadL hxpk)
  obtain ⟨u1, hu1⟩ := exists_below hmemL (by
    rw [hlastL]
    intro h
    injection h with h
    exact hxp0 h.symm)
  obtain ⟨b1, hb1⟩ := exists_below hmemU (by
    rw [up_last hpw, hpk]
    intro h
    injection h with h
    exact hxpk h.symm)
  have hxb1 : lexLt x b1 := up_pair_lt hpw hb1
  have hb1l : b1 ∈ l := up_sub (Adj2_mem hb1).2
  have hu1l : u1 ∈ l := inv.sub u1 (Adj2_mem hu1).2
  have henc1 : 0 ≤ cross u1 x b1 := chain_APL l hpw b1 hb1l u1 x hu1
  have henc2 : 0 ≤ cross b1 x u1 := up_APL hpw hu1l hb1
  have hzero : cross u1 x b1 = 0 := by
    rw [cross_swap13] at henc2
    linarith
  have hu1x : u1.1 < x.1 := stk_xpair inv.ord inv.xstrict hu1 hw1
  have hu1b1 : lexLt u1 b1 := lexLt_trans (stk_pair_lt inv.ord hu1) hxb1
  obtain ⟨sQ, hs0, hs1, e1, e2⟩ := strict_or_seg inv.ord inv.turn inv.xstrict
    (chain_APL l hpw b1 hb1l) hu1 (lexLt_ne hu1b1).symm (lexLt_ne hxb1).symm
    (by
      intro bb hbb
      rw [inv.bot] at hbb
      exact sorted_head_le hpw hbb b1 hb1l)
    (by
      intro hh hhh
      rw [inv.top] at hhh
      exact sorted_le_last hpw hhh b1 hb1l)
    hzero
  have hlt : b1.1 < x.1 := by
    nlinarith [mul_pos (by linarith : (0:ℚ) < 1 - sQ) (by linarith : (0:ℚ) < x.1 - u1.1)]
  exact absurd (lexLt_x_le hxb1) (not_le.mpr hlt)


/-- At the top junction, the last lower edge and the first upper edge
make a strict left turn. -/
theorem corner_turn_low_up {l : List Point} (hpw : List.Pairwise lexLt l)
    (h2 : 2 ≤ l.length) (h3 : 3 ≤ (hullCCW l).length)
    {a b c : Point} (hLa : Adj2 (l.foldl chainPush []) b a)
    (hUc : Adj2 (upStack l) c b) : 0 < cross a b c := by
  have inv := stack_inv l hpw
  rcases stacks_meet hpw h2 (Adj2_mem hLa).1 (Adj2_mem hUc).2 with hb | hb
  · exact absurd (by rw [inv.bot]; exact hb)
      (fun hl => not_Adj2_getLast (StkOrd_nodup inv.ord) hLa hl)
  · have hcl : c ∈ l := up_sub (Adj2_mem hUc).1
    have hal : a ∈ l := inv.sub a (Adj2_mem hLa).2
    have hab : lexLt a b := stk_pair_lt inv.ord hLa
    have hcb : lexLt c b := up_pair_lt hpw hUc
    have henc : 0 ≤ cross a b c := chain_APL l hpw c hcl a b hLa
    rcases eq_or_lt_of_le henc with hz | hpos
    · exfalso
      by_cases hca : c = a
      · subst hca
        rcases stacks_meet hpw h2 (Adj2_mem hLa).2 (Adj2_mem hUc).1 with ha | ha
        · have hL2 : (l.foldl chainPush []).length = 2 :=
            len2_of_adj_head_last (StkOrd_nodup inv.ord) hLa
              (by rw [inv.top]; exact hb) (by rw [inv.bot]; exact ha)
          have hU2 : (upStack l).length = 2 :=
            len2_of_adj_head_last (up_nodup hpw) hUc
              (by rw [up_head hpw]; exact ha) (by rw [up_last hpw]; exact hb)
          rw [hullCCW_length, hL2, hU2] at h3
          omega
        · rw [hb] at ha
          injection ha with ha
          exact lexLt_irrefl b (ha ▸ hab)
      · obtain ⟨s1, hs1a, hs1b, e1, e2⟩ := strict_or_seg inv.ord inv.turn
          inv.xstrict (chain_APL l hpw c hcl) hLa hca (lexLt_ne hcb)
          (by
            intro bb hbb
            rw [inv.bot] at hbb
            exact sorted_head_le hpw hbb c hcl)
          (by
            intro hh hhh
            rw [inv.top] at hhh
            exact sorted_le_last hpw hhh c hcl)
          hz.symm
        obtain ⟨s2, hs2a, hs2b, f1, f2⟩ := up_seg hpw hal hUc
          (fun h => hca h.symm) (lexLt_ne hab)
          (fun q hq => sorted_head_le hpw hq a hal)
          (fun g hg => sorted_le_last hpw hg a hal)
          (by rw [← cross_cyc]; exact hz.symm)
        exact seg_collapse (lexLt_ne hab) hs1a hs1b hs2a hs2b e1 e2 f1 f2
    · exact hpos

/-- At the bottom junction, the last upper edge and the first lower
edge make a strict left turn. -/
theorem corner_turn_up_low {l : List Point} (hpw : List.Pairwise lexLt l)
    (h2 : 2 ≤ l.length) (h3 : 3 ≤ (hullCCW l).length)
    {a b c : Point} (hUa : Adj2 (upStack l) b a)
    (hLc : Adj2 (l.foldl chainPush []) c b) : 0 < cross a b c := by
  have inv := stack_inv l hpw
  rcases stacks_meet hpw h2 (Adj2_mem hLc).2 (Adj2_mem hUa).1 with hb | hb
  case inr =>
    exact absurd (by rw [up_last hpw]; exact hb)
      (fun hl => not_Adj2_getLast (up_nodup hpw) hUa hl)
  case inl =>
    have hba : lexLt b a := up_pair_lt hpw hUa
    have hbc : lexLt b c := stk_pair_lt inv.ord hLc
    have hal : a ∈ l := up_sub (Adj2_mem hUa).2
    have hcl : c ∈ l := inv.sub c (Adj2_mem hLc).1
    have henc : 0 ≤ cross a b c := up_APL hpw hcl hUa
    rcases eq_or_lt_of_le henc with hz | hpos
    · exfalso
      by_cases hca : c = a
      · subst hca
        rcases stacks_meet hpw h2 (Adj2_mem hLc).1 (Adj2_mem hUa).2 with ha | ha
        · rw [hb] at ha
          injection ha with ha
          exact lexLt_irrefl b (ha ▸ hba)
        · have hU2 : (upStack l).length = 2 :=
            len2_of_adj_head_last (up_nodup hpw) hUa
              (by rw [up_head hpw]; exact hb) (by rw [up_last hpw]; exact ha)
          have hL2 : (l.foldl chainPush []).length = 2 :=
            len2_of_adj_head_last (StkOrd_nodup inv.ord) hLc
              (by rw [inv.top]; exact ha) (by rw [inv.bot]; exact hb)
          rw [hullCCW_length, hL2, hU2] at h3
          omega
      · obtain ⟨s1, hs1a, hs1b, e1, e2⟩ := up_seg hpw hcl hUa
          (fun h => (lexLt_ne hbc) h.symm) hca
          (fun q hq => sorted_head_le hpw hq c hcl)
          (fun g hg => sorted_le_last hpw hg c hcl)
          hz.symm
        obtain ⟨s2, hs2a, hs2b, f1, f2⟩ := strict_or_seg inv.ord inv.turn
          inv.xstrict (chain_APL l hpw a hal) hLc (lexLt_ne hba).symm
          (fun h => hca h.symm)
          (by
            intro bb hbb
            rw [inv.bot] at hbb
            exact sorted_head_le hpw hbb a hal)
          (by
            intro hh hhh
            rw [inv.top] at hhh
            exact sorted_le_last hpw hhh a hal)
          (by rw [← cross_cyc]; exact hz.symm)
        exact seg_collapse (lexLt_ne hba).symm hs1a hs1b hs2a hs2b e1 e2 f1 f2
    · exact hpos

/-- Every pair of consecutive cyclic edges of the polygon makes a
strict left turn: the vertices are in strictly convex
counter-clockwise position. -/
theorem hullCCW_turns {l : List Point} (hpw : List.Pairwise lexLt l)
    (h2 : 2 ≤ l.length) (h3 : 3 ≤ (hullCCW l).length)
    {a b c : Point} (hab : AdjC (hullCCW l) a b) (hbc : AdjC (hullCCW l) b c) :
    0 < cross a b c := by
  have inv := stack_inv l hpw
  rcases cyc_edges hpw h2 hab with hL1 | hU1 <;> rcases cyc_edges hpw h2 hbc with hL2 | hU2
  · exact stk_triple inv.ord inv.turn hL1 hL2
  · exact corner_turn_low_up hpw h2 h3 hL1 hU2
  · exact corner_turn_up_low hpw h2 h3 hU1 hL2
  · exact up_turn hpw hU1 hU2


/-- C2: for every input accepted by the hull operation, the returned
list is duplicate-free, has at least three vertices, contains exactly
those input points that lie on the convex hull as vertices (the points
not expressible as convex combinations of the other input points), and
is ordered counter-clockwise: every directed cyclic edge keeps the
whole input weakly to its left, and every two consecutive cyclic edges
make a strict left turn. -/
theorem hull_ccw_extreme_vertices (pts L : List Point)
    (h : hull pts = Except.ok L) :
    L.Nodup ∧ 3 ≤ L.length ∧
    (∀ x, x ∈ L ↔ x ∈ pts ∧ x ∉ convexHull ℚ {y : Point | y ∈ pts ∧ y ≠ x}) ∧
    (∀ u v, AdjC L u v → ∀ y ∈ pts, 0 ≤ cross u v y) ∧
    (∀ a b c, AdjC L a b → AdjC L b c → 0 < cross a b c) := by
  unfold hull at h
  by_cases hd : (distinctList pts).length < 3
  · rw [if_pos hd] at h
    exact Except.noConfusion h
  rw [if_neg hd] at h
  by_cases hc : allCollinear pts = true
  · rw [if_pos hc] at h
    exact Except.noConfusion h
  rw [if_neg hc] at h
  injection h with hL
  have hLdef : hullCCW (sortedPts pts) = L := hL
  subst hLdef
  have hpw : List.Pairwise lexLt (sortedPts pts) := sortedPts_pairwise_lexLt pts
  have hmem : ∀ x : Point, x ∈ sortedPts pts ↔ x ∈ pts := fun x => mem_sortedPts
  have hlen : (sortedPts pts).length = (distinctList pts).length :=
    (insertionSort_perm lexLe (distinctList pts)).length_eq
  have h2 : 2 ≤ (sortedPts pts).length := by omega
  have hnc : ∃ a ∈ sortedPts pts, ∃ b ∈ sortedPts pts, ∃ c ∈ sortedPts pts,
      cross a b c ≠ 0 := by
    simp only [allCollinear, List.all_eq_true, beq_iff_eq] at hc
    push_neg at hc
    obtain ⟨a, ha, b, hb, c, hcc, hne⟩ := hc
    exact ⟨a, (hmem a).mpr ha, b, (hmem b).mpr hb, c, (hmem c).mpr hcc, hne⟩
  have h3 : 3 ≤ (hullCCW (sortedPts pts)).length := three_le_hullCCW hpw h2 hnc
  refine ⟨hullCCW_nodup hpw h2, h3, ?_, ?_, ?_⟩
  · intro x
    have hset : {y : Point | y ∈ pts ∧ y ≠ x} =
        {y : Point | y ∈ sortedPts pts ∧ y ≠ x} := by
      ext y
      exact and_congr_left fun _ => (hmem y).symm
    constructor
    · intro hxL
      refine ⟨(hmem x).mp (hullCCW_subset _ x hxL), ?_⟩
      rw [hset]
      exact hullCCW_vertex_extreme hpw h2 hxL
    · rintro ⟨hxp, hxh⟩
      by_contra hxL
      apply hxh
      rw [hset]
      exact hullCCW_nonvertex_in_hull hpw h2 ((hmem x).mpr hxp) hxL
  · intro u v hadj y hy
    exact hullCCW_enclosure hpw h2 hadj y ((hmem y).mpr hy)
  · intro a b c hab hbc
    exact hullCCW_turns hpw h2 h3 hab hbc


/-- Witness for C2: on the triangle (0,0), (2,0), (1,1) the hull
operation succeeds, returning exactly these points in counter-clockwise
order, and the conclusions hold of the returned list. -/
theorem hull_ccw_extreme_vertices_witness :
    ([((0:ℚ),(0:ℚ)), ((2:ℚ),(0:ℚ)), ((1:ℚ),(1:ℚ))] : List Point).Nodup ∧
    3 ≤ ([((0:ℚ),(0:ℚ)), ((2:ℚ),(0:ℚ)), ((1:ℚ),(1:ℚ))] : List Point).length ∧
    (∀ x, x ∈ ([((0:ℚ),(0:ℚ)), ((2:ℚ),(0:ℚ)), ((1:ℚ),(1:ℚ))] : List Point) ↔
      x ∈ ([((0:ℚ),(0:ℚ)), ((2:ℚ),(0:ℚ)), ((1:ℚ),(1:ℚ))] : List Point) ∧
      x ∉ convexHull ℚ {y : Point |
        y ∈ ([((0:ℚ),(0:ℚ)), ((2:ℚ),(0:ℚ)), ((1:ℚ),(1:ℚ))] : List Point) ∧ y ≠ x}) ∧
    (∀ u v, AdjC [((0:ℚ),(0:ℚ)), ((2:ℚ),(0:ℚ)), ((1:ℚ),(1:ℚ))] u v →
      ∀ y ∈ ([((0:ℚ),(0:ℚ)), ((2:ℚ),(0:ℚ)), ((1:ℚ),(1:ℚ))] : List Point),
        0 ≤ cross u v y) ∧
    (∀ a b c, AdjC [((0:ℚ),(0:ℚ)), ((2:ℚ),(0:ℚ)), ((1:ℚ),(1:ℚ))] a b →
      AdjC [((0:ℚ),(0:ℚ)), ((2:ℚ),(0:ℚ)), ((1:ℚ),(1:ℚ))] b c → 0 < cross a b c) :=
  hull_ccw_extreme_vertices _ _ (by
    norm_num [hull, distinctList, allCollinear, cross, insertionSort, insertSorted,
      lexLe, hullCCW, halfChain, chainPush, upStack, List.all, -Prod.mk_zero_zero])

end Centrography

